import Mathlib

/-!
# gsession: session store, volatile storage and JSON marshaler

A shallow embedding of the Go package `gsession` (`store.go`, `mem.go`,
`marshal.go`) and theorems about it.

Conventions of the embedding.

* A Go `error` result is `Option GoError` (`none` is `nil`); a Go `(T, error)`
  result whose value is ignored on error is `Except GoError T`.
* A Go map is an association list without repeated keys; `GoMap.get`,
  `GoMap.set` and `GoMap.delete` are `m[k]`, `m[k] = v` and `delete(m, k)`.
  Two such lists stand for the same map when one is a permutation of the other.
* Methods with side effects take the state they act on and return the new
  state.  `Store.New` and `Store.Save` also return the list of calls they made
  to their collaborators (id generator, `Storage`, `http.SetCookie`), in order.
* `net/http`, `gorilla/sessions`, `google/uuid` and `encoding/json` are not part
  of the package; the few functions used from them are modelled next to their
  callers and marked as such.
-/

namespace Gsession

/-! ## Go runtime: errors -/

/-- Go error values that the package builds or passes on. -/
inductive GoError where
  /-- The result of `errors.New(s)` and of `fmt.Errorf` without `%w`. -/
  | errorString (s : String)
  /-- The result of `fmt.Errorf` with one `%w` verb: message and wrapped error. -/
  | wrapError (msg : String) (err : GoError)
  /-- The value `&SessionIDError{Cause}` of `store.go`. -/
  | sessionIDError (Cause : GoError)
  /-- The value `&SessionValuesError{Cause}` of `store.go`. -/
  | sessionValuesError (Cause : GoError)
  /-- The sentinel `http.ErrNoCookie`. -/
  | errNoCookie
  deriving DecidableEq, Repr

/-- The method `Error() string`. -/
def GoError.Error : GoError → String
  | .errorString s => s
  | .wrapError msg _ => msg
  | .sessionIDError c => "failed to read session id: " ++ c.Error
  | .sessionValuesError c => "failed to read session values: " ++ c.Error
  | .errNoCookie => "http: named cookie not present"

/-- The method `Unwrap() error`, present only on errors built with `%w`. -/
def GoError.Unwrap : GoError → Option GoError
  | .wrapError _ err => some err
  | _ => none

/-- The call `fmt.Errorf(s + ": %v", err)` for a message head `s`. -/
def Errorf_v (s : String) (err : GoError) : GoError :=
  .errorString (s ++ ": " ++ err.Error)

/-- The call `fmt.Errorf(s + ": %w", err)` for a message head `s`. -/
def Errorf_w (s : String) (err : GoError) : GoError :=
  .wrapError (s ++ ": " ++ err.Error) err

/-- The chain walked by `errors.Is`: `err` is `target` or wraps it, through
any number of `Unwrap` steps. -/
def GoError.Is : GoError → GoError → Bool
  | .wrapError msg err, target =>
      decide (GoError.wrapError msg err = target) || GoError.Is err target
  | err, target => decide (err = target)

/-! ## Go runtime: floating-point numbers -/

/-- Values of type `float64`.  A finite value is `mant * 2 ^ exp`, negated when
`neg` is set; it is held with `mant` odd, and zero as `mant = 0`, `exp = 0`. -/
inductive Float64 where
  | finite (neg : Bool) (mant : Nat) (exp : Int)
  | inf (neg : Bool)
  | nan
  deriving DecidableEq, Repr

/-- A `float64` that is neither an infinity nor a NaN. -/
def Float64.isFinite : Float64 → Bool
  | .finite _ _ _ => true
  | _ => false

/-- Terms that stand for a value of the format: the mantissa is zero with a zero
exponent, or odd and below `2 ^ 53` with an exponent of at least `-1074` and a
magnitude below `2 ^ 1024`. -/
def Float64.valid : Float64 → Bool
  | .finite _ mant exp =>
      decide ((mant = 0 ∧ exp = 0) ∨
        (mant % 2 = 1 ∧ mant < 2 ^ 53 ∧ -1074 ≤ exp ∧
          (exp ≤ 971 ∨ mant * 2 ^ (exp - 971).toNat < 2 ^ 53)))
  | _ => true

/-- The number of low bits that a natural number loses when it is cut to 53
significant bits (`fuel` bounds the search; `n` itself is enough). -/
def shiftTo53 : Nat → Nat → Nat
  | 0, _ => 0
  | fuel + 1, n => if n < 2 ^ 53 then 0 else shiftTo53 fuel (n / 2) + 1

/-- Rounding of a natural number to the nearest number with 53 significant bits,
ties to even: the magnitude of the `float64` nearest to an integer. -/
def roundFloat64Nat (n : Nat) : Nat :=
  let sh := shiftTo53 n n
  let q := n / 2 ^ sh
  let r := n % 2 ^ sh
  let half := 2 ^ (sh - 1)
  let q' := if half < r ∨ (r = half ∧ q % 2 = 1) then q + 1 else q
  q' * 2 ^ sh

/-- The least magnitude that no longer rounds to a finite `float64`: `2 ^ 1024`. -/
def float64Limit : Nat :=
  2 ^ 256 * 2 ^ 256 * 2 ^ 256 * 2 ^ 256

/-- Division by two as long as the number is even and not zero: the odd part
`m` and the exponent `e` with `m * 2 ^ e` unchanged (`fuel` bounds the loop). -/
def stripTwos : Nat → Nat → Int → Nat × Int
  | 0, m, e => (m, e)
  | fuel + 1, m, e =>
      if m % 2 = 0 ∧ m ≠ 0 then stripTwos fuel (m / 2) (e + 1) else (m, e)

/-- The value `strconv.ParseFloat` returns for the decimal digits of an integer:
the nearest `float64`, an infinity when the integer is out of range. -/
def Float64.ofInt (n : Int) : Float64 :=
  let r := roundFloat64Nat n.natAbs
  if r = 0 then .finite false 0 0
  else if r < float64Limit then
    .finite (decide (n < 0)) (stripTwos r r 0).1 (stripTwos r r 0).2
  else .inf (decide (n < 0))

/-! ## `encoding/json`: documents

The byte level of JSON text is the library's concern and is not modelled: a
`[]byte` is either the JSON document it spells or malformed.  A number literal
is represented by what `strconv.ParseFloat` returns for it, the only use the
decoder makes of it.  A string is the text it spells, with invalid UTF-8
already replaced by U+FFFD. -/

/-- A JSON document. -/
inductive JSON where
  | null
  | bool (b : Bool)
  /-- A number literal that `strconv.ParseFloat` reads as `x`; an infinity
  stands for a literal out of the range of `float64`. -/
  | number (x : Float64)
  | string (s : String)
  | array (xs : List JSON)
  | object (members : List (String × JSON))

mutual
/-- Decision of equality on `JSON`. -/
def JSON.decEq : (a b : JSON) → Decidable (a = b)
  | .null, .null => isTrue rfl
  | .null, .bool _ => isFalse nofun
  | .null, .number _ => isFalse nofun
  | .null, .string _ => isFalse nofun
  | .null, .array _ => isFalse nofun
  | .null, .object _ => isFalse nofun
  | .bool _, .null => isFalse nofun
  | .bool a, .bool b =>
      if h : a = b then isTrue (h ▸ rfl) else isFalse (fun e => h (JSON.bool.inj e))
  | .bool _, .number _ => isFalse nofun
  | .bool _, .string _ => isFalse nofun
  | .bool _, .array _ => isFalse nofun
  | .bool _, .object _ => isFalse nofun
  | .number _, .null => isFalse nofun
  | .number _, .bool _ => isFalse nofun
  | .number a, .number b =>
      if h : a = b then isTrue (h ▸ rfl) else isFalse (fun e => h (JSON.number.inj e))
  | .number _, .string _ => isFalse nofun
  | .number _, .array _ => isFalse nofun
  | .number _, .object _ => isFalse nofun
  | .string _, .null => isFalse nofun
  | .string _, .bool _ => isFalse nofun
  | .string _, .number _ => isFalse nofun
  | .string a, .string b =>
      if h : a = b then isTrue (h ▸ rfl) else isFalse (fun e => h (JSON.string.inj e))
  | .string _, .array _ => isFalse nofun
  | .string _, .object _ => isFalse nofun
  | .array _, .null => isFalse nofun
  | .array _, .bool _ => isFalse nofun
  | .array _, .number _ => isFalse nofun
  | .array _, .string _ => isFalse nofun
  | .array a, .array b =>
      match JSON.decEqList a b with
      | isTrue h => isTrue (h ▸ rfl)
      | isFalse h => isFalse (fun e => h (JSON.array.inj e))
  | .array _, .object _ => isFalse nofun
  | .object _, .null => isFalse nofun
  | .object _, .bool _ => isFalse nofun
  | .object _, .number _ => isFalse nofun
  | .object _, .string _ => isFalse nofun
  | .object _, .array _ => isFalse nofun
  | .object a, .object b =>
      match JSON.decEqMembers a b with
      | isTrue h => isTrue (h ▸ rfl)
      | isFalse h => isFalse (fun e => h (JSON.object.inj e))
/-- Decision of equality on lists of `JSON`. -/
def JSON.decEqList : (a b : List JSON) → Decidable (a = b)
  | [], [] => isTrue rfl
  | [], _ :: _ => isFalse nofun
  | _ :: _, [] => isFalse nofun
  | a :: as, b :: bs =>
      match JSON.decEq a b, JSON.decEqList as bs with
      | isTrue h1, isTrue h2 => isTrue (h1 ▸ h2 ▸ rfl)
      | isFalse h1, _ => isFalse (fun e => h1 (List.cons.inj e).1)
      | _, isFalse h2 => isFalse (fun e => h2 (List.cons.inj e).2)
/-- Decision of equality on keyed lists of `JSON`. -/
def JSON.decEqMembers :
    (a b : List (String × JSON)) → Decidable (a = b)
  | [], [] => isTrue rfl
  | [], _ :: _ => isFalse nofun
  | _ :: _, [] => isFalse nofun
  | (k, a) :: as, (l, b) :: bs =>
      if hk : k = l then
        match JSON.decEq a b, JSON.decEqMembers as bs with
        | isTrue h1, isTrue h2 => isTrue (hk ▸ h1 ▸ h2 ▸ rfl)
        | isFalse h1, _ => isFalse (fun e => h1 (Prod.mk.inj (List.cons.inj e).1).2)
        | _, isFalse h2 => isFalse (fun e => h2 (List.cons.inj e).2)
      else isFalse (fun e => hk (Prod.mk.inj (List.cons.inj e).1).1)
end

instance : DecidableEq JSON := JSON.decEq

/-- The content of a `[]byte`. -/
inductive Bytes where
  /-- Bytes that spell the JSON document `doc`. -/
  | json (doc : JSON)
  /-- Bytes that are not a JSON text. -/
  | malformed (raw : List Nat)
  deriving DecidableEq

/-! ## Go runtime: strings -/

/-- A value of type `string` in a session value: a sequence of bytes.  Bytes
that are the UTF-8 encoding of a text are held as that text, any other sequence
of bytes as it is. -/
inductive GoString where
  | utf8 (s : String)
  | raw (bytes : List Nat)
  deriving DecidableEq, Repr

/-- The UTF-8 encoding of a code point. -/
def utf8EncodeRune (c : Nat) : List Nat :=
  if c < 0x80 then [c]
  else if c < 0x800 then [0xC0 + c / 64, 0x80 + c % 64]
  else if c < 0x10000 then [0xE0 + c / 4096, 0x80 + c / 64 % 64, 0x80 + c % 64]
  else [0xF0 + c / 262144, 0x80 + c / 4096 % 64, 0x80 + c / 64 % 64, 0x80 + c % 64]

/-- The bytes of a string. -/
def GoString.bytes : GoString → List Nat
  | .utf8 s => s.data.flatMap (fun c => utf8EncodeRune c.toNat)
  | .raw bytes => bytes

/-- The function `utf8.DecodeRune`: the code point at the head of the bytes and
its width; `none` is `utf8.RuneError` for an invalid encoding, of width 1. -/
def decodeRune : List Nat → Option Nat × Nat
  | [] => (none, 0)
  | p0 :: rest =>
    if p0 < 0x80 then (some p0, 1)
    else if p0 < 0xC2 ∨ 0xF4 < p0 then (none, 1)
    else
      let lo := if p0 = 0xE0 then 0xA0 else if p0 = 0xF0 then 0x90 else 0x80
      let hi := if p0 = 0xED then 0x9F else if p0 = 0xF4 then 0x8F else 0xBF
      match rest with
      | [] => (none, 1)
      | b1 :: rest1 =>
        if p0 < 0xE0 then
          if b1 < lo ∨ hi < b1 then (none, 1)
          else (some (p0 % 32 * 64 + b1 % 64), 2)
        else
          match rest1 with
          | [] => (none, 1)
          | b2 :: rest2 =>
            if p0 < 0xF0 then
              if b1 < lo ∨ hi < b1 ∨ b2 < 0x80 ∨ 0xBF < b2 then (none, 1)
              else (some (p0 % 16 * 4096 + b1 % 64 * 64 + b2 % 64), 3)
            else
              match rest2 with
              | [] => (none, 1)
              | b3 :: _ =>
                if b1 < lo ∨ hi < b1 ∨ b2 < 0x80 ∨ 0xBF < b2 ∨ b3 < 0x80 ∨ 0xBF < b3 then
                  (none, 1)
                else
                  (some (p0 % 8 * 262144 + b1 % 64 * 4096 + b2 % 64 * 64 + b3 % 64), 4)

/-- The code points of a sequence of bytes, read with `utf8.DecodeRune` from
left to right (`fuel` bounds the loop; the number of bytes is enough). -/
def decodeRunes : Nat → List Nat → List (Option Nat)
  | 0, _ => []
  | _ + 1, [] => []
  | fuel + 1, p0 :: rest =>
      (decodeRune (p0 :: rest)).1 ::
        decodeRunes fuel ((p0 :: rest).drop (decodeRune (p0 :: rest)).2)

/-- The text `encoding/json` writes for a string: the string itself, with every
byte that is not part of a valid UTF-8 encoding replaced by U+FFFD. -/
def GoString.jsonText : GoString → String
  | .utf8 s => s
  | .raw bytes =>
      String.mk ((decodeRunes bytes.length bytes).map (fun r =>
        match r with
        | some c => Char.ofNat c
        | none => Char.ofNat 0xFFFD))

/-- Terms that stand for a string: `raw` is used only for bytes (numbers below
256) that are not valid UTF-8. -/
def GoString.valid : GoString → Bool
  | .utf8 _ => true
  | .raw bytes =>
      bytes.all (fun b => decide (b < 256)) &&
        (decodeRunes bytes.length bytes).any (fun r => r.isNone)

/-- A string of valid UTF-8. -/
def GoString.isUTF8 : GoString → Bool
  | .utf8 _ => true
  | .raw _ => false

/-! ## Go runtime: dynamically typed values -/

/-- Values of type `interface{}`, by dynamic type: `nil`, `bool`, `int`,
`float64`, `string`, `[]interface{}` (`nilSlice` is the `nil` slice, `slice`
any other) and `map[string]interface{}` (`nilStrMap` is the `nil` map, `strMap`
any other, its entries held in ascending order of the keys' bytes).  `other`
is a value of any other type, given by the name of the type and by the JSON
document `json.Marshal` writes for the value, if it can encode it. -/
inductive GoValue where
  | nil
  | bool (b : Bool)
  | int (n : Int)
  | float64 (x : Float64)
  | string (s : GoString)
  | slice (xs : List GoValue)
  | nilSlice
  | strMap (m : List (GoString × GoValue))
  | nilStrMap
  | other (typeName : String) (encoding : Option JSON)

mutual
/-- Decision of equality on `GoValue`. -/
def GoValue.decEq : (a b : GoValue) → Decidable (a = b)
  | .nil, .nil => isTrue rfl
  | .nil, .bool _ => isFalse nofun
  | .nil, .int _ => isFalse nofun
  | .nil, .float64 _ => isFalse nofun
  | .nil, .string _ => isFalse nofun
  | .nil, .slice _ => isFalse nofun
  | .nil, .nilSlice => isFalse nofun
  | .nil, .strMap _ => isFalse nofun
  | .nil, .nilStrMap => isFalse nofun
  | .nil, .other _ _ => isFalse nofun
  | .bool _, .nil => isFalse nofun
  | .bool a, .bool b =>
      if h : a = b then isTrue (h ▸ rfl) else isFalse (fun e => h (GoValue.bool.inj e))
  | .bool _, .int _ => isFalse nofun
  | .bool _, .float64 _ => isFalse nofun
  | .bool _, .string _ => isFalse nofun
  | .bool _, .slice _ => isFalse nofun
  | .bool _, .nilSlice => isFalse nofun
  | .bool _, .strMap _ => isFalse nofun
  | .bool _, .nilStrMap => isFalse nofun
  | .bool _, .other _ _ => isFalse nofun
  | .int _, .nil => isFalse nofun
  | .int _, .bool _ => isFalse nofun
  | .int a, .int b =>
      if h : a = b then isTrue (h ▸ rfl) else isFalse (fun e => h (GoValue.int.inj e))
  | .int _, .float64 _ => isFalse nofun
  | .int _, .string _ => isFalse nofun
  | .int _, .slice _ => isFalse nofun
  | .int _, .nilSlice => isFalse nofun
  | .int _, .strMap _ => isFalse nofun
  | .int _, .nilStrMap => isFalse nofun
  | .int _, .other _ _ => isFalse nofun
  | .float64 _, .nil => isFalse nofun
  | .float64 _, .bool _ => isFalse nofun
  | .float64 _, .int _ => isFalse nofun
  | .float64 a, .float64 b =>
      if h : a = b then isTrue (h ▸ rfl) else isFalse (fun e => h (GoValue.float64.inj e))
  | .float64 _, .string _ => isFalse nofun
  | .float64 _, .slice _ => isFalse nofun
  | .float64 _, .nilSlice => isFalse nofun
  | .float64 _, .strMap _ => isFalse nofun
  | .float64 _, .nilStrMap => isFalse nofun
  | .float64 _, .other _ _ => isFalse nofun
  | .string _, .nil => isFalse nofun
  | .string _, .bool _ => isFalse nofun
  | .string _, .int _ => isFalse nofun
  | .string _, .float64 _ => isFalse nofun
  | .string a, .string b =>
      if h : a = b then isTrue (h ▸ rfl) else isFalse (fun e => h (GoValue.string.inj e))
  | .string _, .slice _ => isFalse nofun
  | .string _, .nilSlice => isFalse nofun
  | .string _, .strMap _ => isFalse nofun
  | .string _, .nilStrMap => isFalse nofun
  | .string _, .other _ _ => isFalse nofun
  | .slice _, .nil => isFalse nofun
  | .slice _, .bool _ => isFalse nofun
  | .slice _, .int _ => isFalse nofun
  | .slice _, .float64 _ => isFalse nofun
  | .slice _, .string _ => isFalse nofun
  | .slice a, .slice b =>
      match GoValue.decEqList a b with
      | isTrue h => isTrue (h ▸ rfl)
      | isFalse h => isFalse (fun e => h (GoValue.slice.inj e))
  | .slice _, .nilSlice => isFalse nofun
  | .slice _, .strMap _ => isFalse nofun
  | .slice _, .nilStrMap => isFalse nofun
  | .slice _, .other _ _ => isFalse nofun
  | .nilSlice, .nil => isFalse nofun
  | .nilSlice, .bool _ => isFalse nofun
  | .nilSlice, .int _ => isFalse nofun
  | .nilSlice, .float64 _ => isFalse nofun
  | .nilSlice, .string _ => isFalse nofun
  | .nilSlice, .slice _ => isFalse nofun
  | .nilSlice, .nilSlice => isTrue rfl
  | .nilSlice, .strMap _ => isFalse nofun
  | .nilSlice, .nilStrMap => isFalse nofun
  | .nilSlice, .other _ _ => isFalse nofun
  | .strMap _, .nil => isFalse nofun
  | .strMap _, .bool _ => isFalse nofun
  | .strMap _, .int _ => isFalse nofun
  | .strMap _, .float64 _ => isFalse nofun
  | .strMap _, .string _ => isFalse nofun
  | .strMap _, .slice _ => isFalse nofun
  | .strMap _, .nilSlice => isFalse nofun
  | .strMap a, .strMap b =>
      match GoValue.decEqMembers a b with
      | isTrue h => isTrue (h ▸ rfl)
      | isFalse h => isFalse (fun e => h (GoValue.strMap.inj e))
  | .strMap _, .nilStrMap => isFalse nofun
  | .strMap _, .other _ _ => isFalse nofun
  | .nilStrMap, .nil => isFalse nofun
  | .nilStrMap, .bool _ => isFalse nofun
  | .nilStrMap, .int _ => isFalse nofun
  | .nilStrMap, .float64 _ => isFalse nofun
  | .nilStrMap, .string _ => isFalse nofun
  | .nilStrMap, .slice _ => isFalse nofun
  | .nilStrMap, .nilSlice => isFalse nofun
  | .nilStrMap, .strMap _ => isFalse nofun
  | .nilStrMap, .nilStrMap => isTrue rfl
  | .nilStrMap, .other _ _ => isFalse nofun
  | .other _ _, .nil => isFalse nofun
  | .other _ _, .bool _ => isFalse nofun
  | .other _ _, .int _ => isFalse nofun
  | .other _ _, .float64 _ => isFalse nofun
  | .other _ _, .string _ => isFalse nofun
  | .other _ _, .slice _ => isFalse nofun
  | .other _ _, .nilSlice => isFalse nofun
  | .other _ _, .strMap _ => isFalse nofun
  | .other _ _, .nilStrMap => isFalse nofun
  | .other a1 a2, .other b1 b2 =>
      if h : a1 = b1 ∧ a2 = b2 then isTrue (h.1 ▸ h.2 ▸ rfl)
      else isFalse (fun e => h (GoValue.other.inj e))
/-- Decision of equality on lists of `GoValue`. -/
def GoValue.decEqList : (a b : List GoValue) → Decidable (a = b)
  | [], [] => isTrue rfl
  | [], _ :: _ => isFalse nofun
  | _ :: _, [] => isFalse nofun
  | a :: as, b :: bs =>
      match GoValue.decEq a b, GoValue.decEqList as bs with
      | isTrue h1, isTrue h2 => isTrue (h1 ▸ h2 ▸ rfl)
      | isFalse h1, _ => isFalse (fun e => h1 (List.cons.inj e).1)
      | _, isFalse h2 => isFalse (fun e => h2 (List.cons.inj e).2)
/-- Decision of equality on keyed lists of `GoValue`. -/
def GoValue.decEqMembers :
    (a b : List (GoString × GoValue)) → Decidable (a = b)
  | [], [] => isTrue rfl
  | [], _ :: _ => isFalse nofun
  | _ :: _, [] => isFalse nofun
  | (k, a) :: as, (l, b) :: bs =>
      if hk : k = l then
        match GoValue.decEq a b, GoValue.decEqMembers as bs with
        | isTrue h1, isTrue h2 => isTrue (hk ▸ h1 ▸ h2 ▸ rfl)
        | isFalse h1, _ => isFalse (fun e => h1 (Prod.mk.inj (List.cons.inj e).1).2)
        | _, isFalse h2 => isFalse (fun e => h2 (List.cons.inj e).2)
      else isFalse (fun e => hk (Prod.mk.inj (List.cons.inj e).1).1)
end

instance : DecidableEq GoValue := GoValue.decEq

/-- The verb `%T`: the name of the dynamic type of a value. -/
def GoValue.typeName : GoValue → String
  | .nil => "<nil>"
  | .bool _ => "bool"
  | .int _ => "int"
  | .float64 _ => "float64"
  | .string _ => "string"
  | .slice _ => "[]interface {}"
  | .nilSlice => "[]interface {}"
  | .strMap _ => "map[string]interface {}"
  | .nilStrMap => "map[string]interface {}"
  | .other typeName _ => typeName

/-! ## Go runtime: maps -/

/-- The lookup `v, ok := m[k]`; `none` is `ok == false`. -/
def GoMap.get {κ ν : Type} [DecidableEq κ] : List (κ × ν) → κ → Option ν
  | [], _ => none
  | (k', v) :: rest, k => if k' = k then some v else GoMap.get rest k

/-- The assignment `m[k] = v`: the entry of `k` is replaced, or added. -/
def GoMap.set {κ ν : Type} [DecidableEq κ] : List (κ × ν) → κ → ν → List (κ × ν)
  | [], k, v => [(k, v)]
  | (k', v') :: rest, k, v =>
      if k' = k then (k, v) :: rest else (k', v') :: GoMap.set rest k v

/-- The builtin `delete(m, k)`. -/
def GoMap.delete {κ ν : Type} [DecidableEq κ] (m : List (κ × ν)) (k : κ) : List (κ × ν) :=
  m.filter (fun e => decide (e.1 ≠ k))

/-- The keys of a map, in the order the model lists its entries. -/
def GoMap.keys {κ ν : Type} (m : List (κ × ν)) : List κ :=
  m.map Prod.fst

/-- The session values, `map[interface{}]interface{}`. -/
abbrev Values := List (GoValue × GoValue)

/-! ## `gorilla/sessions` and `net/http`: the data the store handles -/

/-- The type `sessions.Options`. -/
structure Options where
  Path : String
  Domain : String
  MaxAge : Int
  Secure : Bool
  HttpOnly : Bool
  SameSite : Int
  deriving DecidableEq, Repr

/-- The type `sessions.Session`, without the back pointer to its store.  The
field `Options` is a pointer that `sessions.NewSession` always sets; it is
modelled as the value it points to. -/
structure Session where
  ID : String
  Values : Values
  Options : Options
  IsNew : Bool
  name : String
  deriving DecidableEq

/-- The function `sessions.NewSession(store, name)`: empty values, zero options. -/
def NewSession (name : String) : Session :=
  { ID := "", Values := [], Options := ⟨"", "", 0, false, false, 0⟩, IsNew := false,
    name := name }

/-- The method `Session.Name()`. -/
def Session.Name (session : Session) : String :=
  session.name

/-- An `http.Cookie` as `sessions.NewCookie` fills it (the `Expires` field, which
is derived from the clock, is left out). -/
structure Cookie where
  Name : String
  Value : String
  Path : String
  Domain : String
  MaxAge : Int
  Secure : Bool
  HttpOnly : Bool
  SameSite : Int
  deriving DecidableEq, Repr

/-- The function `sessions.NewCookie(name, value, options)`. -/
def NewCookie (name value : String) (options : Options) : Cookie :=
  { Name := name, Value := value, Path := options.Path, Domain := options.Domain,
    MaxAge := options.MaxAge, Secure := options.Secure, HttpOnly := options.HttpOnly,
    SameSite := options.SameSite }

/-- An `http.Request`, reduced to the cookies it carries (name and value). -/
structure Request where
  cookies : List (String × String)
  deriving DecidableEq

/-- The method `Request.Cookie(name)`: the first cookie with that name, or
`http.ErrNoCookie`. -/
def Request.Cookie (r : Request) (name : String) : Except GoError (String × String) :=
  if name = "" then .error .errNoCookie
  else
    match r.cookies.find? (fun c => decide (c.1 = name)) with
    | some c => .ok c
    | none => .error .errNoCookie

/-- The function `validCookieValueByte` of `net/http`: printable ASCII other
than the double quote, the semicolon and the backslash. -/
def validCookieValueByte (c : Char) : Bool :=
  decide (0x20 ≤ c.toNat ∧ c.toNat < 0x7f ∧ c.toNat ≠ 34 ∧ c.toNat ≠ 59 ∧ c.toNat ≠ 92)

/-- The token characters of HTTP, the characters of a cookie name. -/
def isTokenChar (c : Char) : Bool :=
  c.isAlphanum || decide (c.toNat ∈ [33, 35, 36, 37, 38, 39, 42, 43, 45, 46, 94, 95, 96, 124, 126])

/-- The function `isCookieNameValid` of `net/http`. -/
def isCookieNameValid (raw : String) : Bool :=
  !raw.data.isEmpty && raw.data.all isTokenChar

/-- The function `sanitizeCookieValue` of `net/http`: the bytes that are not
valid in a cookie value are dropped, and what is left is put in double quotes
when it holds a space or a comma. -/
def sanitizeCookieValue (v : String) : String :=
  let kept := v.data.filter validCookieValueByte
  if kept.isEmpty then ""
  else if kept.any (fun c => decide (c.toNat = 32 ∨ c.toNat = 44)) then
    String.mk (Char.ofNat 34 :: kept ++ [Char.ofNat 34])
  else String.mk kept

/-- The function `parseCookieValue` of `net/http`, as `readCookies` calls it:
the double quotes around the value are taken off, and the value is refused
when a byte is not valid in a cookie value. -/
def parseCookieValue (raw : String) : Option String :=
  let cs := raw.data
  let cs :=
    if 1 < cs.length ∧ cs.head? = some (Char.ofNat 34) ∧ cs.getLast? = some (Char.ofNat 34)
    then (cs.drop 1).dropLast else cs
  if cs.all validCookieValueByte then some (String.mk cs) else none

/-- What `http.SetCookie(w, c)` adds to the response: the name and the
sanitized value of the `Set-Cookie` header (the attributes are left out), or
nothing when the name is not a valid cookie name. -/
def Cookie.setCookiePair (c : Cookie) : Option (String × String) :=
  if isCookieNameValid c.Name then some (c.Name, sanitizeCookieValue c.Value) else none

/-- The request of a client that sends the pairs `name=value` in its `Cookie`
header, as `net/http` reads them: a pair with an invalid name or value is
skipped. -/
def Request.ofCookieHeader (pairs : List (String × String)) : Request :=
  { cookies := pairs.filterMap (fun p =>
      if isCookieNameValid p.1 then
        match parseCookieValue p.2 with
        | some v => some (p.1, v)
        | none => none
      else none) }

/-- The next request of a client that received the cookies passed to
`http.SetCookie` and sends each one back as the response carried it. -/
def Request.carrying (written : List Gsession.Cookie) : Request :=
  Request.ofCookieHeader (written.filterMap Cookie.setCookiePair)

/-- A string suitable as a cookie value: every byte is valid in a cookie value. -/
def cookieSafe (v : String) : Bool :=
  v.data.all validCookieValueByte

/-! ## `google/uuid` -/

/-- The type `uuid.UUID`, an array of 16 bytes. -/
structure UUID where
  bytes : List Nat
  deriving DecidableEq

/-- Lower-case hexadecimal form of a list of bytes. -/
def hexOfBytes : List Nat → List Char
  | [] => []
  | b :: bs => Nat.digitChar (b / 16 % 16) :: Nat.digitChar (b % 16) :: hexOfBytes bs

/-- The method `UUID.String()`: `xxxxxxxx-xxxx-xxxx-xxxx-xxxxxxxxxxxx`. -/
def UUID.String (u : UUID) : String :=
  String.mk
    (hexOfBytes (u.bytes.take 4) ++ '-' :: hexOfBytes ((u.bytes.drop 4).take 2)
      ++ '-' :: hexOfBytes ((u.bytes.drop 6).take 2)
      ++ '-' :: hexOfBytes ((u.bytes.drop 8).take 2)
      ++ '-' :: hexOfBytes ((u.bytes.drop 10).take 6))

/-! ## `store.go` -/

/-- The interface `Storage`, over the type `σ` of the backing store's state. -/
structure Storage (σ : Type) where
  Save : σ → String → Values → σ × Option GoError
  Load : σ → String → σ × Except GoError Values
  Delete : σ → String → σ × Option GoError

/-- The interface `CookieCodec` of `codec.go`. -/
structure CookieCodec where
  Encode : String → String → Except GoError String
  Decode : String → String → Except GoError String

/-- The struct `Store`.  A field that may be `nil` is an `Option`. -/
structure Store (σ : Type) where
  Options : Option Options
  IDGenerator : Option (Unit → Except GoError String)
  Storage : Storage σ
  CookieCodec : Option CookieCodec

/-- A call that `Store.New` or `Store.Save` makes to a collaborator.
`setCookie c` is the call `http.SetCookie(w, c)`; how `net/http` then renders
the cookie into the response header is outside the package. -/
inductive Call where
  | generateID
  | storageSave (id : String) (values : Values)
  | storageLoad (id : String)
  | storageDelete (id : String)
  | setCookie (c : Cookie)
  deriving DecidableEq

/-- The cookies passed to `http.SetCookie`, in order. -/
def cookiesWritten : List Call → List Cookie
  | [] => []
  | .setCookie c :: rest => c :: cookiesWritten rest
  | _ :: rest => cookiesWritten rest

/-- The calls made to the `Storage`, in order. -/
def storageCalls : List Call → List Call
  | [] => []
  | .storageSave id v :: rest => .storageSave id v :: storageCalls rest
  | .storageLoad id :: rest => .storageLoad id :: storageCalls rest
  | .storageDelete id :: rest => .storageDelete id :: storageCalls rest
  | _ :: rest => storageCalls rest

/-- The function `uuidIDGenerator`; `newRandom` is what `uuid.NewRandom()` returns. -/
def uuidIDGenerator (newRandom : Except GoError UUID) : Except GoError String :=
  match newRandom with
  | .error err => .error (Errorf_v "uuid.NewRandom" err)
  | .ok id => .ok id.String

/-- The method `Store.generateID`. -/
def Store.generateID {σ : Type} (s : Store σ) (newRandom : Except GoError UUID) :
    Except GoError String :=
  match s.IDGenerator with
  | none => uuidIDGenerator newRandom
  | some idGenerator => idGenerator ()

/-- The method `Store.readSessionID`. -/
def Store.readSessionID {σ : Type} (s : Store σ) (r : Request) (sessionName : String) :
    Except GoError String :=
  match r.Cookie sessionName with
  | .error err => if err = .errNoCookie then .ok "" else .error err
  | .ok c =>
    match s.CookieCodec with
    | none => .ok c.2
    | some codec =>
      match codec.Decode sessionName c.2 with
      | .error err => .error (Errorf_w "CookieCodec.Decode" err)
      | .ok id => .ok id

/-- The method `Store.writeSessionID`: the error, and the calls made. -/
def Store.writeSessionID {σ : Type} (s : Store σ) (session : Session) :
    Option GoError × List Call :=
  match s.CookieCodec with
  | none => (none, [.setCookie (NewCookie session.Name session.ID session.Options)])
  | some codec =>
    match codec.Encode session.Name session.ID with
    | .error err => (some (Errorf_w "CookieCodec.Encode" err), [])
    | .ok encoded => (none, [.setCookie (NewCookie session.Name encoded session.Options)])

/-- What `Store.New` returns and does. -/
structure NewResult (σ : Type) where
  session : Session
  err : Option GoError
  storage : σ
  calls : List Call

/-- The session `Store.New` starts from: `sessions.NewSession`, a copy of the
store's options when it has some, `IsNew = true`. -/
def Store.freshSession {σ : Type} (s : Store σ) (name : String) : Session :=
  let session := NewSession name
  let session :=
    match s.Options with
    | some opts => { session with Options := opts }
    | none => session
  { session with IsNew := true }

/-- The method `Store.New`. -/
def Store.New {σ : Type} (s : Store σ) (st : σ) (r : Request) (name : String) :
    NewResult σ :=
  let session := s.freshSession name
  match s.readSessionID r name with
  | .error err => ⟨session, some (.sessionIDError err), st, []⟩
  | .ok existingSessionID =>
    if existingSessionID = "" then ⟨session, none, st, []⟩
    else
      match s.Storage.Load st existingSessionID with
      | (st1, .error err) =>
          ⟨session, some (.sessionValuesError err), st1, [.storageLoad existingSessionID]⟩
      | (st1, .ok values) =>
          ⟨{ session with Values := values, IsNew := false }, none, st1,
            [.storageLoad existingSessionID]⟩

/-- What `Store.Save` returns and does; `session` is the session after the call. -/
structure SaveResult (σ : Type) where
  err : Option GoError
  session : Session
  storage : σ
  calls : List Call

/-- The second half of `Store.Save`: `Storage.Save`, then `writeSessionID`. -/
def Store.saveAndWrite {σ : Type} (s : Store σ) (st : σ) (session : Session)
    (before : List Call) : SaveResult σ :=
  match s.Storage.Save st session.ID session.Values with
  | (st1, some err) =>
      ⟨some (Errorf_w "Storage.Save" err), session, st1,
        before ++ [.storageSave session.ID session.Values]⟩
  | (st1, none) =>
    match s.writeSessionID session with
    | (some err, calls) =>
        ⟨some (Errorf_w "writeSessionID" err), session, st1,
          before ++ .storageSave session.ID session.Values :: calls⟩
    | (none, calls) =>
        ⟨none, session, st1, before ++ .storageSave session.ID session.Values :: calls⟩

/-- The method `Store.Save`; `newRandom` is what `uuid.NewRandom()` returns if
the default generator is called. -/
def Store.Save {σ : Type} (s : Store σ) (st : σ) (newRandom : Except GoError UUID)
    (session : Session) : SaveResult σ :=
  if session.Options.MaxAge < 0 then
    if session.ID ≠ "" then
      match s.Storage.Delete st session.ID with
      | (st1, some err) => ⟨some err, session, st1, [.storageDelete session.ID]⟩
      | (st1, none) =>
          ⟨none, session, st1,
            [.storageDelete session.ID,
              .setCookie (NewCookie session.Name "" session.Options)]⟩
    else ⟨none, session, st, [.setCookie (NewCookie session.Name "" session.Options)]⟩
  else if session.ID = "" then
    match s.generateID newRandom with
    | .error err => ⟨some (Errorf_v "idGenerator" err), session, st, [.generateID]⟩
    | .ok id =>
      if id = "" then
        ⟨some (.errorString "generated id was blank"), session, st, [.generateID]⟩
      else s.saveAndWrite st { session with ID := id } [.generateID]
  else s.saveAndWrite st session []

/-! ## `mem.go` -/

/-- The struct `MemStorage`; `none` is the `nil` map of a zero value. -/
structure MemStorage where
  SessionValues : Option (List (String × Values))
  deriving DecidableEq

/-- The method `MemStorage.Save`. -/
def MemStorage.Save (s : MemStorage) (id : String) (values : Values) :
    MemStorage × Option GoError :=
  let m :=
    match s.SessionValues with
    | none => []
    | some m => m
  ({ SessionValues := some (GoMap.set m id values) }, none)

/-- The method `MemStorage.Load`. -/
def MemStorage.Load (s : MemStorage) (id : String) : Except GoError Values :=
  let found :=
    match s.SessionValues with
    | none => none
    | some m => GoMap.get m id
  match found with
  | none => .error (.errorString ("no value found for id: " ++ id))
  | some values => .ok values

/-- The method `MemStorage.Delete`; `delete` on a `nil` map does nothing. -/
def MemStorage.Delete (s : MemStorage) (id : String) : MemStorage × Option GoError :=
  match s.SessionValues with
  | none => (s, none)
  | some m => ({ SessionValues := some (GoMap.delete m id) }, none)

/-- A `*MemStorage` used as a `Storage`. -/
def MemStorage.asStorage : Storage MemStorage :=
  { Save := MemStorage.Save
    Load := fun s id => (s, MemStorage.Load s id)
    Delete := MemStorage.Delete }

/-! ## `encoding/json`: encoder and decoder

Error messages of the library are abbreviated. -/

/-- The order in which `json.Marshal` writes the entries of a map: ascending
by the bytes of the keys. -/
def sortByKey {α : Type} (l : List (GoString × α)) : List (GoString × α) :=
  l.insertionSort (fun a b => a.1.bytes ≤ b.1.bytes)

/-- The members of an object from the encoded entries of a map, in the order
given: the first error, or every key as the text written for it with the
document of its value. -/
def collectMembers :
    List (GoString × Except GoError JSON) → Except GoError (List (String × JSON))
  | [] => .ok []
  | (_, .error err) :: _ => .error err
  | (k, .ok j) :: rest =>
      match collectMembers rest with
      | .error err => .error err
      | .ok ms => .ok ((k.jsonText, j) :: ms)

mutual
/-- The encoder of `json.Marshal` on a value of type `interface{}`. -/
def encodeValue : GoValue → Except GoError JSON
  | .nil => .ok .null
  | .bool b => .ok (.bool b)
  | .int n => .ok (.number (Float64.ofInt n))
  | .float64 (.finite neg mant exp) => .ok (.number (.finite neg mant exp))
  | .float64 (.inf false) => .error (.errorString "json: unsupported value: +Inf")
  | .float64 (.inf true) => .error (.errorString "json: unsupported value: -Inf")
  | .float64 .nan => .error (.errorString "json: unsupported value: NaN")
  | .string s => .ok (.string s.jsonText)
  | .slice xs =>
      match encodeList xs with
      | .error err => .error err
      | .ok js => .ok (.array js)
  | .nilSlice => .ok .null
  | .strMap m =>
      match collectMembers (sortByKey (encodeMembers m)) with
      | .error err => .error err
      | .ok ms => .ok (.object ms)
  | .nilStrMap => .ok .null
  | .other typeName none => .error (.errorString ("json: unsupported type: " ++ typeName))
  | .other _ (some j) => .ok j
/-- The encoder on the elements of a slice, in order, up to the first error. -/
def encodeList : List GoValue → Except GoError (List JSON)
  | [] => .ok []
  | v :: vs =>
      match encodeValue v with
      | .error err => .error err
      | .ok j =>
        match encodeList vs with
        | .error err => .error err
        | .ok js => .ok (j :: js)
/-- The encoder on the value of every entry of a `map[string]interface{}`. -/
def encodeMembers : List (GoString × GoValue) → List (GoString × Except GoError JSON)
  | [] => []
  | (k, v) :: vs => (k, encodeValue v) :: encodeMembers vs
end

/-- The function `json.Marshal` on a `map[string]interface{}`: the bytes (`none`
is a `nil` slice) and the error. -/
def jsonMarshal (m : List (GoString × GoValue)) : Option Bytes × Option GoError :=
  match collectMembers (sortByKey (encodeMembers m)) with
  | .error err => (none, some err)
  | .ok ms => (some (.json (.object ms)), none)

/-- A map built by assigning the entries of a list in order. -/
def GoMap.ofList {κ ν : Type} [DecidableEq κ] (l : List (κ × ν)) : List (κ × ν) :=
  l.foldl (fun m e => GoMap.set m e.1 e.2) []

/-- The assignment `m[k] = v` on a map held in ascending order of the keys'
bytes: the entry of `k` is replaced, or added in its place. -/
def GoMap.setSorted {ν : Type} : List (GoString × ν) → GoString → ν → List (GoString × ν)
  | [], k, v => [(k, v)]
  | (k', v') :: rest, k, v =>
      if k' = k then (k, v) :: rest
      else if k.bytes < k'.bytes then (k, v) :: (k', v') :: rest
      else (k', v') :: GoMap.setSorted rest k v

/-- A map held in ascending key order, built by assigning the entries of a list
in order. -/
def GoMap.ofListSorted {ν : Type} (l : List (GoString × ν)) : List (GoString × ν) :=
  l.foldl (fun m e => GoMap.setSorted m e.1 e.2) []

/-- The decoder keeps the first error it meets and goes on. -/
def firstError : Option GoError → Option GoError → Option GoError
  | some err, _ => some err
  | none, later => later

mutual
/-- The decoder of `json.Unmarshal` into a value of type `interface{}`: the
value, and the error saved on the way (a number out of range decodes to `nil`
and saves an error). -/
def decodeValue : JSON → GoValue × Option GoError
  | .null => (.nil, none)
  | .bool b => (.bool b, none)
  | .number (.finite neg mant exp) => (.float64 (.finite neg mant exp), none)
  | .number _ =>
      (.nil, some (.errorString
        "json: cannot unmarshal number into Go value of type float64"))
  | .string s => (.string (.utf8 s), none)
  | .array xs => (.slice (decodeList xs).1, (decodeList xs).2)
  | .object ms => (.strMap (GoMap.ofListSorted (decodeMembers ms).1), (decodeMembers ms).2)
/-- The decoder on the elements of an array. -/
def decodeList : List JSON → List GoValue × Option GoError
  | [] => ([], none)
  | j :: js =>
      ((decodeValue j).1 :: (decodeList js).1,
        firstError (decodeValue j).2 (decodeList js).2)
/-- The decoder on the members of an object, in document order. -/
def decodeMembers : List (String × JSON) → List (GoString × GoValue) × Option GoError
  | [] => ([], none)
  | (k, j) :: js =>
      ((.utf8 k, (decodeValue j).1) :: (decodeMembers js).1,
        firstError (decodeValue j).2 (decodeMembers js).2)
end

/-- The function `json.Unmarshal(data, &compatValues)` for a `nil`
`compatValues` of type `map[string]interface{}`: the map afterwards (a `nil`
map is the empty list) and the error. -/
def jsonUnmarshal (data : Bytes) : List (GoString × GoValue) × Option GoError :=
  match data with
  | .malformed _ => ([], some (.errorString "json: syntax error"))
  | .json .null => ([], none)
  | .json (.object ms) => (GoMap.ofList (decodeMembers ms).1, (decodeMembers ms).2)
  | .json (.bool _) =>
      ([], some (.errorString
        "json: cannot unmarshal bool into Go value of type map[string]interface {}"))
  | .json (.number _) =>
      ([], some (.errorString
        "json: cannot unmarshal number into Go value of type map[string]interface {}"))
  | .json (.string _) =>
      ([], some (.errorString
        "json: cannot unmarshal string into Go value of type map[string]interface {}"))
  | .json (.array _) =>
      ([], some (.errorString
        "json: cannot unmarshal array into Go value of type map[string]interface {}"))

/-! ## `marshal.go` -/

/-- The loop of `JSONMarshaler.Marshal` over the entries still to visit, with
`compatValues` as filled so far. -/
def JSONMarshaler.compatLoop :
    Values → List (GoString × GoValue) → Except GoError (List (GoString × GoValue))
  | [], compatValues => .ok compatValues
  | (k, v) :: rest, compatValues =>
      match k with
      | .string compatK => JSONMarshaler.compatLoop rest (GoMap.set compatValues compatK v)
      | _ =>
          .error (.errorString
            ("JSONMarshaler: only string keys supported: " ++ k.typeName))

/-- The method `JSONMarshaler.Marshal`: the bytes (`none` is `nil`) and the error. -/
def JSONMarshaler.Marshal (values : Values) : Option Bytes × Option GoError :=
  match JSONMarshaler.compatLoop values [] with
  | .error err => (none, some err)
  | .ok compatValues => jsonMarshal compatValues

/-- The method `JSONMarshaler.Unmarshal`: the values and the error, both returned. -/
def JSONMarshaler.Unmarshal (data : Bytes) : Values × Option GoError :=
  let (compatValues, err) := jsonUnmarshal data
  let values :=
    compatValues.foldl (fun values e => GoMap.set values (GoValue.string e.1) e.2) []
  (values, err)

/-- The method `JSONMarshaler.ContentType`. -/
def JSONMarshaler.ContentType : String :=
  "application/json"

/-! ## Value domains used in the statements -/

mutual
/-- Terms that stand for a Go value: an `int` fits 64 bits, a `float64` and a
string are held as described with their types, the entries of a map are in
strictly ascending order of the keys' bytes, and `other` is not used for one of
the types that have a constructor of their own. -/
def GoValue.valid : GoValue → Bool
  | .nil => true
  | .bool _ => true
  | .int n => decide (-(2 : Int) ^ 63 ≤ n ∧ n < (2 : Int) ^ 63)
  | .float64 x => x.valid
  | .string s => s.valid
  | .slice xs => GoValue.validList xs
  | .nilSlice => true
  | .strMap m =>
      decide ((m.map (fun e => e.1.bytes)).Sorted (· < ·)) && GoValue.validMembers m
  | .nilStrMap => true
  | .other typeName _ =>
      decide (typeName ∉ ["<nil>", "bool", "int", "float64", "string", "[]interface {}",
        "map[string]interface {}"])
/-- Every element of a slice stands for a Go value. -/
def GoValue.validList : List GoValue → Bool
  | [] => true
  | v :: vs => GoValue.valid v && GoValue.validList vs
/-- Every key and every value of a string-keyed map stands for a Go value. -/
def GoValue.validMembers : List (GoString × GoValue) → Bool
  | [] => true
  | (k, v) :: vs => k.valid && GoValue.valid v && GoValue.validMembers vs
end

mutual
/-- Values of JSON-native form, the form of the values `json.Unmarshal` stores
in an `interface{}`: `nil`, a `bool`, a finite `float64`, a string of valid
UTF-8, a `[]interface{}` that is not `nil` or a `map[string]interface{}` that
is not `nil` and has keys of valid UTF-8, with elements of this form. -/
def GoValue.jsonNative : GoValue → Bool
  | .nil => true
  | .bool _ => true
  | .int _ => false
  | .float64 x => x.isFinite
  | .string s => s.isUTF8
  | .slice xs => GoValue.jsonNativeList xs
  | .nilSlice => false
  | .strMap m => GoValue.jsonNativeMembers m
  | .nilStrMap => false
  | .other _ _ => false
/-- Every element of a slice is of JSON-native form. -/
def GoValue.jsonNativeList : List GoValue → Bool
  | [] => true
  | v :: vs => GoValue.jsonNative v && GoValue.jsonNativeList vs
/-- Every key of a string-keyed map is valid UTF-8 and every value is of
JSON-native form. -/
def GoValue.jsonNativeMembers : List (GoString × GoValue) → Bool
  | [] => true
  | (k, v) :: vs => k.isUTF8 && GoValue.jsonNative v && GoValue.jsonNativeMembers vs
end

/-- Session values that stand for a Go map: no key twice, every key and every
value a term that stands for a Go value. -/
def validValues (values : Values) : Prop :=
  (GoMap.keys values).Nodup ∧
    ∀ e ∈ values, GoValue.valid e.1 = true ∧ GoValue.valid e.2 = true

/-- Session values of JSON-native form: every key is a string of valid UTF-8
and every value is of JSON-native form. -/
def nativeValues (values : Values) : Prop :=
  ∀ e ∈ values, (∃ s, e.1 = GoValue.string (.utf8 s)) ∧ GoValue.jsonNative e.2 = true

end Gsession

/-! ## Statement helpers -/

namespace Gsession

/-- The cookie value `value` of the session cookie `name` decodes to `id`: it
is `id` itself without a codec, and `CookieCodec.Decode` returns `id` otherwise. -/
def Store.decodesTo {σ : Type} (s : Store σ) (name value id : String) : Prop :=
  (s.CookieCodec = none ∧ value = id) ∨
    ∃ codec, s.CookieCodec = some codec ∧ codec.Decode name value = .ok id

/-- The value `Store.writeSessionID` puts in the cookie for `id`: `id` itself
without a codec, what `CookieCodec.Encode` returns otherwise. -/
def Store.encodesTo {σ : Type} (s : Store σ) (name id value : String) : Prop :=
  (s.CookieCodec = none ∧ value = id) ∨
    ∃ codec, s.CookieCodec = some codec ∧ codec.Encode name id = .ok value

/-- The id the store would save `session` under: its own id when it has one,
the newly generated id otherwise. -/
def Store.idForSave {σ : Type} (s : Store σ) (newRandom : Except GoError UUID)
    (session : Session) (id : String) : Prop :=
  id ≠ "" ∧ (session.ID = id ∨ (session.ID = "" ∧ s.generateID newRandom = .ok id))

/-- A `map[string]interface{}` seen as a `map[interface{}]interface{}`: the same
entries, every key as a value of dynamic type `string`. -/
def stringKeyed (m : List (GoString × GoValue)) : Values :=
  m.map (fun e => (GoValue.string e.1, e.2))

/-- The entry the decoder builds from the encoded entry of a map: the key as
the text written for it, the value decoded from its document. -/
def decodedEntry (e : GoString × Except GoError JSON) : GoString × GoValue :=
  (.utf8 e.1.jsonText,
    match e.2 with
    | .ok j => (decodeValue j).1
    | .error _ => .nil)

/-- A codec whose `Decode` undoes `Encode` on the id of the session `name`. -/
def CookieCodec.roundTripsAt (codec : CookieCodec) (name id : String) : Prop :=
  ∃ encoded, codec.Encode name id = .ok encoded ∧ codec.Decode name encoded = .ok id

end Gsession

/-! ## Inputs used in the examples -/

namespace Gsession

/-- A `Storage` on which every operation fails. -/
def failingStorage : Storage Unit :=
  { Save := fun st _ _ => (st, some (.errorString "save failed"))
    Load := fun st _ => (st, .error (.errorString "load failed"))
    Delete := fun st _ => (st, some (.errorString "delete failed")) }

/-- A codec that reverses the id. -/
def reverseCodec : CookieCodec :=
  { Encode := fun _ id => .ok (String.mk id.data.reverse)
    Decode := fun _ value => .ok (String.mk value.data.reverse) }

/-- A codec that cannot encode. -/
def brokenCodec : CookieCodec :=
  { Encode := fun _ _ => .error (.errorString "encode failed")
    Decode := fun _ _ => .error (.errorString "decode failed") }

/-- A store over `MemStorage` whose generator returns `id-1`, with the codec given. -/
def memStore (codec : Option CookieCodec) : Store MemStorage :=
  { Options := none
    IDGenerator := some (fun _ => .ok "id-1")
    Storage := MemStorage.asStorage
    CookieCodec := codec }

/-- A store over `MemStorage` whose generator returns `a;b`, an id with a byte
that is not valid in a cookie value. -/
def memStoreUnsafeID : Store MemStorage :=
  { Options := none
    IDGenerator := some (fun _ => .ok "a;b")
    Storage := MemStorage.asStorage
    CookieCodec := none }

/-- A store over `MemStorage` whose generator fails. -/
def memStoreNoID : Store MemStorage :=
  { Options := none
    IDGenerator := some (fun _ => .error (.errorString "no entropy"))
    Storage := MemStorage.asStorage
    CookieCodec := none }

/-- A store over the failing storage. -/
def failingStore : Store Unit :=
  { Options := none
    IDGenerator := some (fun _ => .ok "id-1")
    Storage := failingStorage
    CookieCodec := none }

/-- The values `{"a": 1}`. -/
def valuesA1 : Values :=
  [(.string (.utf8 "a"), .int 1)]

/-- A session that was never saved, named `sid`, with values `{"a": 1}`. -/
def sessionA1 : Session :=
  { NewSession "sid" with Values := valuesA1, IsNew := true }

/-- The session `abc`, named `sid`, marked for deletion (`MaxAge = -1`). -/
def sessionExpired : Session :=
  { ID := "abc", Values := [], Options := ⟨"/", "", -1, false, true, 0⟩, IsNew := false,
    name := "sid" }

/-- A storage state that holds `{"a": 1}` under the id `abc`. -/
def memWithABC : MemStorage :=
  { SessionValues := some [("abc", valuesA1)] }

/-- A request that carries the cookie `sid=abc`. -/
def requestABC : Request :=
  { cookies := [("sid", "abc")] }

/-- The values `{"a": 1, 2: nil}`, with a key of dynamic type `int`. -/
def valuesIntKey : Values :=
  [(.string (.utf8 "a"), .int 1), (.int 2, .nil)]

/-- The values `{"b": [true, nil, 1.5], "a": {"y": "x", "z": {}}}`, all of
JSON-native form. -/
def valuesNative : Values :=
  [(.string (.utf8 "b"), .slice [.bool true, .nil, .float64 (.finite false 3 (-1))]),
    (.string (.utf8 "a"),
      .strMap [(.utf8 "y", .string (.utf8 "x")), (.utf8 "z", .strMap [])])]

/-- The values `{"s": []interface{}(nil), "t": "\xff"}`: a `nil` slice and a
string that is not valid UTF-8. -/
def valuesNilAndRaw : Values :=
  [(.string (.utf8 "s"), .nilSlice), (.string (.utf8 "t"), .string (.raw [255]))]

/-- The bytes `{"a":1}`. -/
def bytesA1 : Bytes :=
  .json (.object [("a", .number (.finite false 1 0))])

/-- What `uuid.NewRandom()` returns when the random source fails. -/
def noRandom : Except GoError UUID :=
  .error (.errorString "random source failed")

end Gsession

/-! ## Lemmas on maps -/

namespace Gsession

theorem GoMap.get_set_self {κ ν : Type} [DecidableEq κ] (m : List (κ × ν)) (k : κ) (v : ν) :
    GoMap.get (GoMap.set m k v) k = some v := by
  induction m with
  | nil => simp [GoMap.set, GoMap.get]
  | cons e rest ih =>
    obtain ⟨k', v'⟩ := e
    by_cases h : k' = k
    · simp [GoMap.set, GoMap.get, h]
    · simp [GoMap.set, GoMap.get, h, ih]

theorem GoMap.get_delete_self {κ ν : Type} [DecidableEq κ] (m : List (κ × ν)) (k : κ) :
    GoMap.get (GoMap.delete m k) k = none := by
  induction m with
  | nil => simp [GoMap.delete, GoMap.get]
  | cons e rest ih =>
    obtain ⟨k', v'⟩ := e
    by_cases h : k' = k
    · simpa [GoMap.delete, List.filter_cons, h] using ih
    · simpa [GoMap.delete, List.filter_cons, h, GoMap.get] using ih

theorem GoMap.get_delete_other {κ ν : Type} [DecidableEq κ] (m : List (κ × ν)) (k k' : κ)
    (h : k' ≠ k) : GoMap.get (GoMap.delete m k) k' = GoMap.get m k' := by
  induction m with
  | nil => simp [GoMap.delete, GoMap.get]
  | cons e rest ih =>
    obtain ⟨k0, v0⟩ := e
    by_cases h0 : k0 = k
    · subst h0
      have hne : ¬ k0 = k' := fun e => h e.symm
      simpa [GoMap.delete, List.filter_cons, GoMap.get, hne] using ih
    · by_cases h1 : k0 = k'
      · subst h1
        simp [GoMap.delete, List.filter_cons, GoMap.get, h0]
      · simpa [GoMap.delete, List.filter_cons, GoMap.get, h0, h1] using ih

theorem GoMap.delete_delete {κ ν : Type} [DecidableEq κ] (m : List (κ × ν)) (k : κ) :
    GoMap.delete (GoMap.delete m k) k = GoMap.delete m k := by
  simp [GoMap.delete, List.filter_filter]

theorem Request.Cookie_error (r : Request) (name : String) (err : GoError)
    (h : r.Cookie name = .error err) : err = .errNoCookie := by
  unfold Request.Cookie at h
  split at h
  · cases h; rfl
  · split at h
    · cases h
    · cases h; rfl

end Gsession

/-! ## `MemStorage.Delete` -/

namespace Gsession

/-- C8. For every `MemStorage` state, a `nil` map included, and every id:
`Delete` returns no error; afterwards `Load` of that id fails and `Load` of
every other id returns what it returned before; a second `Delete` of the same
id returns no error and leaves the store as the first call left it. -/
theorem C8_memStorage_delete_idempotent (s : MemStorage) (id : String) :
    (s.Delete id).2 = none ∧
    (∃ err, (s.Delete id).1.Load id = .error err) ∧
    (∀ other, other ≠ id → (s.Delete id).1.Load other = s.Load other) ∧
    (s.Delete id).1.Delete id = ((s.Delete id).1, none) := by
  obtain ⟨m⟩ := s
  cases m with
  | none =>
    refine ⟨rfl, ⟨_, rfl⟩, fun _ _ => rfl, rfl⟩
  | some m =>
    refine ⟨rfl, ?_, ?_, ?_⟩
    · exact ⟨.errorString ("no value found for id: " ++ id),
        by simp [MemStorage.Delete, MemStorage.Load, GoMap.get_delete_self]⟩
    · intro other h
      simp [MemStorage.Delete, MemStorage.Load, GoMap.get_delete_other m id other h]
    · simp [MemStorage.Delete, GoMap.delete_delete]

end Gsession

/-! ## `Store.New` -/

namespace Gsession

theorem Store.freshSession_fields {σ : Type} (s : Store σ) (name : String) :
    (s.freshSession name).IsNew = true ∧ (s.freshSession name).Values = [] ∧
      (s.freshSession name).ID = "" ∧ (s.freshSession name).name = name := by
  unfold Store.freshSession NewSession
  cases s.Options <;> simp

theorem Store.readSessionID_cases {σ : Type} (s : Store σ) (r : Request) (name : String) :
    (r.Cookie name = .error .errNoCookie ∧ s.readSessionID r name = .ok "") ∨
    (∃ c codec err, r.Cookie name = .ok c ∧ s.CookieCodec = some codec ∧
      codec.Decode name c.2 = .error err ∧
      s.readSessionID r name = .error (Errorf_w "CookieCodec.Decode" err)) ∨
    (∃ c id, r.Cookie name = .ok c ∧ s.decodesTo name c.2 id ∧
      s.readSessionID r name = .ok id) := by
  unfold Store.readSessionID Store.decodesTo
  cases hc : r.Cookie name with
  | error err =>
    have := Request.Cookie_error r name err hc
    subst this
    exact Or.inl ⟨rfl, by simp⟩
  | ok c =>
    cases hcodec : s.CookieCodec with
    | none => exact Or.inr (Or.inr ⟨c, c.2, rfl, Or.inl ⟨rfl, rfl⟩, rfl⟩)
    | some codec =>
      cases hd : codec.Decode name c.2 with
      | error err => exact Or.inr (Or.inl ⟨c, codec, err, rfl, rfl, hd, by simp [hd]⟩)
      | ok id => exact Or.inr (Or.inr ⟨c, id, rfl, Or.inr ⟨codec, rfl, hd⟩, by simp [hd]⟩)

/-- C2. `Store.New` is one of four cases, for every store, storage state,
request and session name. (1) The cookie is absent, or it decodes to the empty
id: the fresh session, no error, no call at all (so no `Storage.Load`).
(2) The cookie is present and `CookieCodec.Decode` fails with `err`: the fresh
session, a `SessionIDError` whose cause wraps `err`, no call at all.
(3) The cookie decodes to a non-empty id and `Storage.Load` fails with `err`:
the fresh session and a `SessionValuesError` whose cause is `err`.
(4) The cookie decodes to a non-empty id and `Storage.Load` returns `values`:
no error, `Values = values`, `IsNew = false`.
The fresh session has `IsNew = true` and empty values, and the result has
`IsNew = false` exactly when the load succeeded. -/
theorem C2_new_characterised {σ : Type} (s : Store σ) (st : σ) (r : Request)
    (name : String) :
    (((r.Cookie name = .error .errNoCookie ∨
          ∃ c, r.Cookie name = .ok c ∧ s.decodesTo name c.2 "") ∧
        s.New st r name = ⟨s.freshSession name, none, st, []⟩) ∨
      (∃ c codec err, r.Cookie name = .ok c ∧ s.CookieCodec = some codec ∧
        codec.Decode name c.2 = .error err ∧
        (Errorf_w "CookieCodec.Decode" err).Unwrap = some err ∧
        s.New st r name =
          ⟨s.freshSession name, some (.sessionIDError (Errorf_w "CookieCodec.Decode" err)),
            st, []⟩) ∨
      (∃ c id st1 err, r.Cookie name = .ok c ∧ s.decodesTo name c.2 id ∧ id ≠ "" ∧
        s.Storage.Load st id = (st1, .error err) ∧
        s.New st r name =
          ⟨s.freshSession name, some (.sessionValuesError err), st1, [.storageLoad id]⟩) ∨
      (∃ c id st1 values, r.Cookie name = .ok c ∧ s.decodesTo name c.2 id ∧ id ≠ "" ∧
        s.Storage.Load st id = (st1, .ok values) ∧
        s.New st r name =
          ⟨{ s.freshSession name with Values := values, IsNew := false }, none, st1,
            [.storageLoad id]⟩)) ∧
    ((s.freshSession name).IsNew = true ∧ (s.freshSession name).Values = []) ∧
    ((s.New st r name).session.IsNew = false ↔
      ∃ c id st1 values, r.Cookie name = .ok c ∧ s.decodesTo name c.2 id ∧ id ≠ "" ∧
        s.Storage.Load st id = (st1, .ok values)) := by
  have hfresh := Store.freshSession_fields s name
  refine ⟨?_, ⟨hfresh.1, hfresh.2.1⟩, ?_⟩
  · rcases Store.readSessionID_cases s r name with ⟨hc, hr⟩ | ⟨c, codec, err, hc, hcodec, hd, hr⟩ |
      ⟨c, id, hc, hdec, hr⟩
    · exact Or.inl ⟨Or.inl hc, by simp [Store.New, hr]⟩
    · exact Or.inr (Or.inl ⟨c, codec, err, hc, hcodec, hd, rfl, by simp [Store.New, hr]⟩)
    · by_cases hid : id = ""
      · subst hid
        exact Or.inl ⟨Or.inr ⟨c, hc, hdec⟩, by simp [Store.New, hr]⟩
      · cases hl : s.Storage.Load st id with
        | mk st1 res =>
          cases res with
          | error err =>
            exact Or.inr (Or.inr (Or.inl ⟨c, id, st1, err, hc, hdec, hid, hl,
              by simp [Store.New, hr, hid, hl]⟩))
          | ok values =>
            exact Or.inr (Or.inr (Or.inr ⟨c, id, st1, values, hc, hdec, hid, hl,
              by simp [Store.New, hr, hid, hl]⟩))
  · rcases Store.readSessionID_cases s r name with ⟨hc, hr⟩ | ⟨c, codec, err, hc, hcodec, hd, hr⟩ |
      ⟨c, id, hc, hdec, hr⟩
    · simp [Store.New, hr, hfresh.1, hc]
    · have hno : ∀ id, ¬ s.decodesTo name c.2 id := by
        intro id h
        rcases h with ⟨h, _⟩ | ⟨codec2, h, h2⟩
        · rw [hcodec] at h; cases h
        · rw [hcodec] at h; cases h; rw [hd] at h2; cases h2
      simp [Store.New, hr, hfresh.1, hc, hno]
    · have huniq : ∀ id2, s.decodesTo name c.2 id2 → id2 = id := by
        intro id2 h2
        rcases hdec with ⟨h, e⟩ | ⟨codec, h, e⟩ <;> rcases h2 with ⟨h2, e2⟩ | ⟨codec2, h2, e2⟩
        · rw [← e, ← e2]
        · rw [h] at h2; cases h2
        · rw [h] at h2; cases h2
        · rw [h] at h2; cases h2; rw [e] at e2; cases e2; rfl
      by_cases hid : id = ""
      · subst hid
        constructor
        · intro h; simp [Store.New, hr, hfresh.1] at h
        · rintro ⟨c2, id2, st1, values, hc2, hdec2, hid2, _⟩
          rw [hc] at hc2; cases hc2
          exact absurd (huniq id2 hdec2) hid2
      · cases hl : s.Storage.Load st id with
        | mk st1 res =>
          cases res with
          | error err =>
            constructor
            · intro h; simp [Store.New, hr, hid, hl, hfresh.1] at h
            · rintro ⟨c2, id2, st2, values, hc2, hdec2, hid2, hl2⟩
              rw [hc] at hc2; cases hc2
              rw [huniq id2 hdec2, hl] at hl2
              cases hl2
          | ok values =>
            constructor
            · intro _; exact ⟨c, id, st1, values, hc, hdec, hid, hl⟩
            · intro _; simp [Store.New, hr, hid, hl]

end Gsession

/-! ## `Store.Save` -/

namespace Gsession

theorem GoError.Is_self (err : GoError) : GoError.Is err err = true := by
  cases err <;> simp [GoError.Is]

theorem GoError.Is_wrap (msg : String) (err target : GoError)
    (h : GoError.Is err target = true) : GoError.Is (.wrapError msg err) target = true := by
  simp [GoError.Is, h]

/-- C4. For every session with `MaxAge < 0`, `Store.Save` calls neither the id
generator nor `Storage.Save`. With a non-empty id it calls `Storage.Delete`
once, with the session's id, and no other storage method, and returns exactly
the error (or `nil`) that `Storage.Delete` returned; with an empty id it makes
no storage call. Whenever the id is empty or the delete succeeded it returns
`nil` and writes exactly one cookie: the session's name, the empty value, the
session's options. Nothing is assumed about what the storage held. -/
theorem C4_save_negative_maxAge {σ : Type} (s : Store σ) (st : σ)
    (newRandom : Except GoError UUID) (session : Session)
    (hage : session.Options.MaxAge < 0) :
    Call.generateID ∉ (s.Save st newRandom session).calls ∧
    (∀ id values, Call.storageSave id values ∉ (s.Save st newRandom session).calls) ∧
    (session.ID ≠ "" →
      storageCalls (s.Save st newRandom session).calls = [.storageDelete session.ID] ∧
      (s.Save st newRandom session).err = (s.Storage.Delete st session.ID).2 ∧
      (s.Save st newRandom session).storage = (s.Storage.Delete st session.ID).1) ∧
    (session.ID = "" →
      storageCalls (s.Save st newRandom session).calls = [] ∧
      (s.Save st newRandom session).storage = st) ∧
    (session.ID = "" ∨ (s.Storage.Delete st session.ID).2 = none →
      (s.Save st newRandom session).err = none ∧
      cookiesWritten (s.Save st newRandom session).calls =
        [NewCookie session.Name "" session.Options]) := by
  by_cases hid : session.ID = ""
  · simp [Store.Save, hage, hid, storageCalls, cookiesWritten]
  · cases hd : s.Storage.Delete st session.ID with
    | mk st1 res =>
      cases res with
      | none => simp [Store.Save, hage, hid, hd, storageCalls, cookiesWritten]
      | some err => simp [Store.Save, hage, hid, hd, storageCalls, cookiesWritten]

/-- C4, at a session with id `abc` and `MaxAge = -1`, on a store that never
held `abc`. -/
theorem C4_save_negative_maxAge_witness :
    sessionExpired.Options.MaxAge < 0 ∧
    storageCalls ((memStore none).Save ⟨none⟩ noRandom sessionExpired).calls =
      [.storageDelete "abc"] ∧
    ((memStore none).Save ⟨none⟩ noRandom sessionExpired).err = none ∧
    cookiesWritten ((memStore none).Save ⟨none⟩ noRandom sessionExpired).calls =
      [NewCookie "sid" "" sessionExpired.Options] :=
  have h := C4_save_negative_maxAge (memStore none) ⟨none⟩ noRandom sessionExpired (by decide)
  ⟨by decide, (h.2.2.1 (by decide)).1, (h.2.2.2.2 (Or.inr rfl)).1, (h.2.2.2.2 (Or.inr rfl)).2⟩

/-- C5 as stated fails: on a storage whose `Delete` fails, saving the session
`abc` with `MaxAge = -1` returns the error of `Delete` and writes no cookie. -/
theorem C5_delete_failure_counterexample :
    sessionExpired.Options.MaxAge < 0 ∧ sessionExpired.ID ≠ "" ∧
    (failingStore.Storage.Delete () sessionExpired.ID).2 =
      some (.errorString "delete failed") ∧
    (failingStore.Save () noRandom sessionExpired).err =
      some (.errorString "delete failed") ∧
    cookiesWritten (failingStore.Save () noRandom sessionExpired).calls = [] := by
  decide

/-- C5, amended. For every session with `MaxAge < 0` and a non-empty id: if
`Storage.Delete` returns an error, `Store.Save` returns that error and writes
no cookie; if `Storage.Delete` succeeds, it writes the cookie with the empty
value and the session's options. -/
theorem C5_delete_path_cookie {σ : Type} (s : Store σ) (st : σ)
    (newRandom : Except GoError UUID) (session : Session)
    (hage : session.Options.MaxAge < 0) (hid : session.ID ≠ "") :
    (∀ err, (s.Storage.Delete st session.ID).2 = some err →
      (s.Save st newRandom session).err = some err ∧
      cookiesWritten (s.Save st newRandom session).calls = []) ∧
    ((s.Storage.Delete st session.ID).2 = none →
      (s.Save st newRandom session).err = none ∧
      cookiesWritten (s.Save st newRandom session).calls =
        [NewCookie session.Name "" session.Options]) := by
  cases hd : s.Storage.Delete st session.ID with
  | mk st1 res =>
    cases res with
    | none => simp [Store.Save, hage, hid, hd, cookiesWritten]
    | some err => simp [Store.Save, hage, hid, hd, cookiesWritten]

/-- C5 amended, at the session `abc` with `MaxAge = -1` on the failing storage. -/
theorem C5_delete_path_cookie_witness :
    sessionExpired.Options.MaxAge < 0 ∧ sessionExpired.ID ≠ "" ∧
    (failingStore.Save () noRandom sessionExpired).err =
      some (.errorString "delete failed") ∧
    cookiesWritten (failingStore.Save () noRandom sessionExpired).calls = [] :=
  have h := C5_delete_path_cookie failingStore () noRandom sessionExpired (by decide)
    (by decide)
  ⟨by decide, by decide, (h.1 _ rfl).1, (h.1 _ rfl).2⟩

/-- C6. For every session with an empty id and `MaxAge >= 0`: if
`Store.generateID` (the configured `IDGenerator`, or `uuidIDGenerator` when
none is set) returns an error or the empty string, `Store.Save` returns an
error, its only call is the one to the generator (no `Storage.Save`, no
`Storage.Delete`, no cookie), the session's id is still empty and the storage
state is the one it was given. -/
theorem C6_generation_failure_isolation {σ : Type} (s : Store σ) (st : σ)
    (newRandom : Except GoError UUID) (session : Session)
    (hid : session.ID = "") (hage : 0 ≤ session.Options.MaxAge)
    (hgen : (∃ err, s.generateID newRandom = .error err) ∨
      s.generateID newRandom = .ok "") :
    (s.Save st newRandom session).err ≠ none ∧
    (s.Save st newRandom session).calls = [.generateID] ∧
    storageCalls (s.Save st newRandom session).calls = [] ∧
    cookiesWritten (s.Save st newRandom session).calls = [] ∧
    (s.Save st newRandom session).session.ID = "" ∧
    (s.Save st newRandom session).storage = st := by
  have hage' : ¬ session.Options.MaxAge < 0 := not_lt.mpr hage
  rcases hgen with ⟨err, hgen⟩ | hgen
  · simp [Store.Save, hage', hid, hgen, storageCalls, cookiesWritten]
  · simp [Store.Save, hage', hid, hgen, storageCalls, cookiesWritten]

/-- C6, at a store whose generator fails and a session that was never saved. -/
theorem C6_generation_failure_isolation_witness :
    sessionA1.ID = "" ∧ 0 ≤ sessionA1.Options.MaxAge ∧
    memStoreNoID.generateID noRandom = .error (.errorString "no entropy") ∧
    (memStoreNoID.Save memWithABC noRandom sessionA1).err ≠ none ∧
    (memStoreNoID.Save memWithABC noRandom sessionA1).calls = [.generateID] ∧
    (memStoreNoID.Save memWithABC noRandom sessionA1).storage = memWithABC :=
  have h := C6_generation_failure_isolation memStoreNoID memWithABC noRandom sessionA1 rfl
    (by decide) (Or.inl ⟨_, rfl⟩)
  ⟨rfl, by decide, rfl, h.1, h.2.1, h.2.2.2.2.2⟩

theorem cookiesWritten_append (xs ys : List Call) :
    cookiesWritten (xs ++ ys) = cookiesWritten xs ++ cookiesWritten ys := by
  induction xs with
  | nil => rfl
  | cons c rest ih => cases c <;> simp [cookiesWritten, ih]

theorem storageCalls_append (xs ys : List Call) :
    storageCalls (xs ++ ys) = storageCalls xs ++ storageCalls ys := by
  induction xs with
  | nil => rfl
  | cons c rest ih => cases c <;> simp [storageCalls, ih]

theorem Store.saveAndWrite_spec {σ : Type} (s : Store σ) (st : σ) (session : Session)
    (before : List Call) (hb : cookiesWritten before = []) :
    (s.saveAndWrite st session before).session = session ∧
    (cookiesWritten (s.saveAndWrite st session before).calls ≠ [] ↔
      (s.saveAndWrite st session before).err = none) ∧
    (∀ st1 err, s.Storage.Save st session.ID session.Values = (st1, some err) →
      (s.saveAndWrite st session before).err = some (Errorf_w "Storage.Save" err) ∧
      cookiesWritten (s.saveAndWrite st session before).calls = []) ∧
    (∀ st1 codec err, s.Storage.Save st session.ID session.Values = (st1, none) →
      s.CookieCodec = some codec → codec.Encode session.Name session.ID = .error err →
      (s.saveAndWrite st session before).err =
        some (Errorf_w "writeSessionID" (Errorf_w "CookieCodec.Encode" err)) ∧
      cookiesWritten (s.saveAndWrite st session before).calls = [] ∧
      (s.saveAndWrite st session before).storage = st1) ∧
    ((s.saveAndWrite st session before).err = none →
      ∃ value, s.encodesTo session.Name session.ID value ∧
        (s.saveAndWrite st session before).calls =
          before ++ [.storageSave session.ID session.Values,
            .setCookie (NewCookie session.Name value session.Options)] ∧
        (s.saveAndWrite st session before).storage =
          (s.Storage.Save st session.ID session.Values).1) := by
  cases hs : s.Storage.Save st session.ID session.Values with
  | mk st1 res =>
    cases res with
    | some err =>
      simp [Store.saveAndWrite, hs, cookiesWritten_append, hb, cookiesWritten]
    | none =>
      cases hc : s.CookieCodec with
      | none =>
        simp [Store.saveAndWrite, Store.writeSessionID, Store.encodesTo, hs, hc,
          cookiesWritten_append, hb, cookiesWritten]
      | some codec =>
        cases he : codec.Encode session.Name session.ID with
        | error err =>
          simp [Store.saveAndWrite, Store.writeSessionID, Store.encodesTo, hs, hc, he,
            cookiesWritten_append, hb, cookiesWritten]
          rintro st2 codec2 err2 rfl rfl he2
          rw [he] at he2
          cases he2
          exact ⟨rfl, rfl⟩
        | ok value =>
          simp [Store.saveAndWrite, Store.writeSessionID, Store.encodesTo, hs, hc, he,
            cookiesWritten_append, hb, cookiesWritten]
          rintro st2 codec2 err2 rfl rfl he2
          rw [he] at he2
          cases he2

theorem Store.saveAndWrite_success {σ : Type} (s : Store σ) (st st1 : σ) (session : Session)
    (before : List Call) (value : String)
    (hs : s.Storage.Save st session.ID session.Values = (st1, none))
    (he : s.encodesTo session.Name session.ID value) :
    s.saveAndWrite st session before =
      ⟨none, session, st1,
        before ++ [.storageSave session.ID session.Values,
          .setCookie (NewCookie session.Name value session.Options)]⟩ := by
  rcases he with ⟨hc, rfl⟩ | ⟨codec, hc, he⟩
  · simp [Store.saveAndWrite, Store.writeSessionID, hs, hc]
  · simp [Store.saveAndWrite, Store.writeSessionID, hs, hc, he]

theorem Store.Save_nonneg_cases {σ : Type} (s : Store σ) (st : σ)
    (newRandom : Except GoError UUID) (session : Session)
    (hage : 0 ≤ session.Options.MaxAge) :
    ((∀ id, ¬ s.idForSave newRandom session id) ∧
      (s.Save st newRandom session).err ≠ none ∧
      (s.Save st newRandom session).calls = [.generateID]) ∨
    (∃ id before, s.idForSave newRandom session id ∧ cookiesWritten before = [] ∧
      storageCalls before = [] ∧
      s.Save st newRandom session =
        s.saveAndWrite st { session with ID := id } before) := by
  have hage' : ¬ session.Options.MaxAge < 0 := not_lt.mpr hage
  by_cases hid : session.ID = ""
  · cases hg : s.generateID newRandom with
    | error err =>
      refine Or.inl ⟨?_, by simp [Store.Save, hage', hid, hg], by simp [Store.Save, hage', hid, hg]⟩
      rintro id ⟨hne, h | ⟨_, h⟩⟩
      · exact hne (h ▸ hid)
      · rw [hg] at h; cases h
    | ok id =>
      by_cases hblank : id = ""
      · refine Or.inl ⟨?_, by simp [Store.Save, hage', hid, hg, hblank],
          by simp [Store.Save, hage', hid, hg, hblank]⟩
        rintro id2 ⟨hne, h | ⟨_, h⟩⟩
        · exact hne (h ▸ hid)
        · rw [hg] at h; cases h; exact hne hblank
      · exact Or.inr ⟨id, [.generateID], ⟨hblank, Or.inr ⟨hid, hg⟩⟩, rfl, rfl,
          by simp [Store.Save, hage', hid, hg, hblank]⟩
  · refine Or.inr ⟨session.ID, [], ⟨hid, Or.inl rfl⟩, rfl, rfl, ?_⟩
    simp [Store.Save, hage', hid]

theorem Store.idForSave_unique {σ : Type} (s : Store σ) (newRandom : Except GoError UUID)
    (session : Session) (id id2 : String) (h : s.idForSave newRandom session id)
    (h2 : s.idForSave newRandom session id2) : id2 = id := by
  rcases h with ⟨hne, h | ⟨he, h⟩⟩ <;> rcases h2 with ⟨hne2, h2 | ⟨he2, h2⟩⟩
  · rw [← h, ← h2]
  · exact absurd (h ▸ he2) hne
  · exact absurd (h2 ▸ he) hne2
  · rw [h] at h2; cases h2; rfl

/-- C7. For every session with `MaxAge >= 0`, `Store.Save` writes a cookie if
and only if it returns `nil`. With `id` the id the session is saved under (its
own, or the generated one): if `Storage.Save` fails with `err`, the result
wraps `err` and no cookie is written; if `Storage.Save` succeeds and
`CookieCodec.Encode` fails with `err`, the result wraps `err` and no cookie
is written; if `Storage.Save` succeeds and the id encodes to `value` (the id
itself without a codec, what `Encode` returns otherwise), `Save` returns `nil`,
`Storage.Save` was called exactly once, with the id and the session's values,
and the call that follows it immediately is the single cookie write, with the
session's name, `value` and the session's options. Whenever `Save` returns
`nil` it went this way. -/
theorem C7_save_storage_then_cookie {σ : Type} (s : Store σ) (st : σ)
    (newRandom : Except GoError UUID) (session : Session)
    (hage : 0 ≤ session.Options.MaxAge) :
    (cookiesWritten (s.Save st newRandom session).calls ≠ [] ↔
      (s.Save st newRandom session).err = none) ∧
    (∀ id, s.idForSave newRandom session id →
      (∀ st1 err, s.Storage.Save st id session.Values = (st1, some err) →
        (s.Save st newRandom session).err = some (Errorf_w "Storage.Save" err) ∧
        (Errorf_w "Storage.Save" err).Unwrap = some err ∧
        cookiesWritten (s.Save st newRandom session).calls = []) ∧
      (∀ st1 codec err, s.Storage.Save st id session.Values = (st1, none) →
        s.CookieCodec = some codec → codec.Encode session.Name id = .error err →
        (s.Save st newRandom session).err =
          some (Errorf_w "writeSessionID" (Errorf_w "CookieCodec.Encode" err)) ∧
        GoError.Is (Errorf_w "writeSessionID" (Errorf_w "CookieCodec.Encode" err)) err = true ∧
        cookiesWritten (s.Save st newRandom session).calls = [] ∧
        (s.Save st newRandom session).storage = st1) ∧
      (∀ st1 value, s.Storage.Save st id session.Values = (st1, none) →
        s.encodesTo session.Name id value →
        (s.Save st newRandom session).err = none ∧
        (s.Save st newRandom session).session = { session with ID := id } ∧
        (s.Save st newRandom session).storage = st1 ∧
        storageCalls (s.Save st newRandom session).calls =
          [.storageSave id session.Values] ∧
        cookiesWritten (s.Save st newRandom session).calls =
          [NewCookie session.Name value session.Options] ∧
        ∃ before, (s.Save st newRandom session).calls =
          before ++ [.storageSave id session.Values,
            .setCookie (NewCookie session.Name value session.Options)])) ∧
    ((s.Save st newRandom session).err = none →
      ∃ id value before, s.idForSave newRandom session id ∧
        (s.Save st newRandom session).session = { session with ID := id } ∧
        s.encodesTo session.Name id value ∧
        (s.Save st newRandom session).calls =
          before ++ [.storageSave id session.Values,
            .setCookie (NewCookie session.Name value session.Options)] ∧
        storageCalls (s.Save st newRandom session).calls =
          [.storageSave id session.Values] ∧
        cookiesWritten (s.Save st newRandom session).calls =
          [NewCookie session.Name value session.Options] ∧
        (s.Save st newRandom session).storage = (s.Storage.Save st id session.Values).1) := by
  rcases Store.Save_nonneg_cases s st newRandom session hage with
    ⟨hno, herr, hcalls⟩ | ⟨id, before, hfor, hb, hb2, heq⟩
  · refine ⟨?_, fun id h => absurd h (hno id), fun h => absurd h herr⟩
    rw [hcalls]
    simp [cookiesWritten, herr]
  · have hspec := Store.saveAndWrite_spec s st { session with ID := id } before hb
    rw [← heq] at hspec
    obtain ⟨hsess, hiff, hsave, henc, hok⟩ := hspec
    refine ⟨hiff, ?_, ?_⟩
    · intro id2 h2
      have := Store.idForSave_unique s newRandom session id id2 hfor h2
      subst this
      refine ⟨fun st1 err h => ?_, fun st1 codec err h hc he => ?_, fun st1 value h he => ?_⟩
      · exact ⟨(hsave st1 err h).1, rfl, (hsave st1 err h).2⟩
      · have := henc st1 codec err h hc he
        exact ⟨this.1, GoError.Is_wrap _ _ _ (GoError.Is_wrap _ _ _ (GoError.Is_self err)),
          this.2.1, this.2.2⟩
      · have hsucc := Store.saveAndWrite_success s st st1 { session with ID := id2 } before
          value h he
        rw [heq, hsucc]
        refine ⟨rfl, rfl, rfl, ?_, ?_, before, rfl⟩
        · simp only [storageCalls_append, hb2]; rfl
        · simp only [cookiesWritten_append, hb]; rfl
    · intro h
      obtain ⟨value, hv, hc, hst⟩ := hok h
      refine ⟨id, value, before, hfor, hsess, hv, hc, ?_, ?_, hst⟩
      · rw [hc, storageCalls_append, hb2]; rfl
      · rw [hc, cookiesWritten_append, hb]; rfl

/-- C7, at a never-saved session with values `{"a": 1}` and `MaxAge = 0`. On a
store with the reversing codec the values are stored under `id-1`, `Save`
returns `nil` and the one cookie written is `sid=1-di`. On a store whose codec
cannot encode the values are stored, the result wraps the codec's error and no
cookie is written. -/
theorem C7_save_storage_then_cookie_witness :
    0 ≤ sessionA1.Options.MaxAge ∧
    (memStore (some reverseCodec)).idForSave noRandom sessionA1 "id-1" ∧
    ((memStore (some reverseCodec)).Save ⟨none⟩ noRandom sessionA1).err = none ∧
    ((memStore (some reverseCodec)).Save ⟨none⟩ noRandom sessionA1).storage =
      ⟨some [("id-1", valuesA1)]⟩ ∧
    storageCalls ((memStore (some reverseCodec)).Save ⟨none⟩ noRandom sessionA1).calls =
      [.storageSave "id-1" valuesA1] ∧
    cookiesWritten ((memStore (some reverseCodec)).Save ⟨none⟩ noRandom sessionA1).calls =
      [NewCookie "sid" "1-di" sessionA1.Options] ∧
    ((memStore (some brokenCodec)).Save ⟨none⟩ noRandom sessionA1).err =
      some (Errorf_w "writeSessionID"
        (Errorf_w "CookieCodec.Encode" (.errorString "encode failed"))) ∧
    cookiesWritten ((memStore (some brokenCodec)).Save ⟨none⟩ noRandom sessionA1).calls = [] ∧
    ((memStore (some brokenCodec)).Save ⟨none⟩ noRandom sessionA1).storage =
      ⟨some [("id-1", valuesA1)]⟩ :=
  have hfor : (memStore (some reverseCodec)).idForSave noRandom sessionA1 "id-1" :=
    ⟨by decide, Or.inr ⟨rfl, rfl⟩⟩
  have hfor2 : (memStore (some brokenCodec)).idForSave noRandom sessionA1 "id-1" :=
    ⟨by decide, Or.inr ⟨rfl, rfl⟩⟩
  have hok := ((C7_save_storage_then_cookie (memStore (some reverseCodec)) ⟨none⟩ noRandom
    sessionA1 (by decide)).2.1 "id-1" hfor).2.2 ⟨some [("id-1", valuesA1)]⟩ "1-di" rfl
      (Or.inr ⟨reverseCodec, rfl, rfl⟩)
  have h := ((C7_save_storage_then_cookie (memStore (some brokenCodec)) ⟨none⟩ noRandom
    sessionA1 (by decide)).2.1 "id-1" hfor2).2.1 ⟨some [("id-1", valuesA1)]⟩ brokenCodec
      (.errorString "encode failed") rfl rfl rfl
  ⟨by decide, hfor, hok.1, hok.2.2.1, hok.2.2.2.1, hok.2.2.2.2.1, h.1, h.2.2.1, h.2.2.2⟩

end Gsession

/-! ## Saving, then loading -/

namespace Gsession

theorem validCookieValueByte_quote : validCookieValueByte (Char.ofNat 34) = false := by
  decide

theorem parseCookieValue_sanitizeCookieValue (v : String) (h : cookieSafe v = true) :
    parseCookieValue (sanitizeCookieValue v) = some v := by
  obtain ⟨cs⟩ := v
  simp only [cookieSafe] at h
  have hfilter : cs.filter validCookieValueByte = cs := List.filter_eq_self.mpr (by
    intro c hc
    exact List.all_eq_true.mp h c hc)
  have hnoquote : ∀ c ∈ cs, c ≠ Char.ofNat 34 := by
    intro c hc e
    have := List.all_eq_true.mp h c hc
    rw [e, validCookieValueByte_quote] at this
    cases this
  simp only [sanitizeCookieValue, hfilter]
  cases cs with
  | nil => simp [parseCookieValue]
  | cons c rest =>
    have hc : c ≠ Char.ofNat 34 := hnoquote c (by simp)
    have hhead : ¬ (some c = some (Char.ofNat 34)) := fun e => hc (Option.some.inj e)
    simp only [List.isEmpty_cons, Bool.false_eq_true, if_false]
    split
    · have hlast : (Char.ofNat 34 :: c :: rest ++ [Char.ofNat 34]).getLast? =
          some (Char.ofNat 34) := by
        have : Char.ofNat 34 :: c :: rest ++ [Char.ofNat 34] =
            (Char.ofNat 34 :: c :: rest) ++ [Char.ofNat 34] := rfl
        rw [this, List.getLast?_concat]
      have hdrop : (List.drop 1 (Char.ofNat 34 :: c :: rest ++ [Char.ofNat 34])).dropLast =
          c :: rest := by
        have : List.drop 1 (Char.ofNat 34 :: c :: rest ++ [Char.ofNat 34]) =
            (c :: rest) ++ [Char.ofNat 34] := rfl
        rw [this, List.dropLast_concat]
      have hlen : 1 < (Char.ofNat 34 :: c :: rest ++ [Char.ofNat 34]).length := by simp
      have hcond : 1 < (Char.ofNat 34 :: c :: rest ++ [Char.ofNat 34]).length ∧
          (Char.ofNat 34 :: c :: rest ++ [Char.ofNat 34]).head? = some (Char.ofNat 34) ∧
          (Char.ofNat 34 :: c :: rest ++ [Char.ofNat 34]).getLast? = some (Char.ofNat 34) :=
        ⟨hlen, rfl, hlast⟩
      simp only [parseCookieValue]
      rw [if_pos hcond, hdrop, if_pos h]
    · simp only [parseCookieValue, List.head?_cons, hhead, false_and, and_false, if_false, h,
        if_true]

theorem Request.carrying_single (name value : String) (options : Options)
    (hname : isCookieNameValid name = true) (hsafe : cookieSafe value = true) :
    (Request.carrying [NewCookie name value options]).Cookie name = .ok (name, value) := by
  have hne : name ≠ "" := by
    intro e
    rw [e] at hname
    simp [isCookieNameValid] at hname
  simp [Request.carrying, Request.ofCookieHeader, Cookie.setCookiePair, NewCookie, hname,
    parseCookieValue_sanitizeCookieValue value hsafe, Request.Cookie, hne]

theorem reverseCodec_roundTripsAt (name id : String) : reverseCodec.roundTripsAt name id :=
  ⟨_, rfl, by simp [reverseCodec]⟩

theorem Store.Save_MemStorage_fresh (s : Store MemStorage) (m : MemStorage)
    (newRandom : Except GoError UUID) (session : Session) (id : String)
    (hstorage : s.Storage = MemStorage.asStorage)
    (hcodec : ∀ codec, s.CookieCodec = some codec → codec.roundTripsAt session.Name id)
    (hgen : s.generateID newRandom = .ok id) (hne : id ≠ "")
    (hid : session.ID = "") (hage : 0 ≤ session.Options.MaxAge) :
    ∃ value, s.encodesTo session.Name id value ∧ s.decodesTo session.Name value id ∧
      s.Save m newRandom session =
        ⟨none, { session with ID := id }, (MemStorage.Save m id session.Values).1,
          [.generateID, .storageSave id session.Values,
            .setCookie (NewCookie session.Name value session.Options)]⟩ := by
  have hage' : ¬ session.Options.MaxAge < 0 := not_lt.mpr hage
  cases hc : s.CookieCodec with
  | none =>
    refine ⟨id, Or.inl ⟨hc, rfl⟩, Or.inl ⟨hc, rfl⟩, ?_⟩
    simp [Store.Save, hage', hid, hgen, hne, Store.saveAndWrite, Store.writeSessionID,
      hstorage, hc, MemStorage.asStorage, MemStorage.Save, Session.Name]
  | some codec =>
    obtain ⟨encoded, henc, hdec⟩ := hcodec codec hc
    refine ⟨encoded, Or.inr ⟨codec, hc, henc⟩, Or.inr ⟨codec, hc, hdec⟩, ?_⟩
    simp only [Session.Name] at henc
    simp [Store.Save, hage', hid, hgen, hne, Store.saveAndWrite, Store.writeSessionID,
      hstorage, hc, MemStorage.asStorage, MemStorage.Save, Session.Name, henc]

theorem Store.New_MemStorage_loaded (s : Store MemStorage) (m : MemStorage) (r : Request)
    (name value id : String) (values : Values)
    (hstorage : s.Storage = MemStorage.asStorage)
    (hr : r.Cookie name = .ok (name, value)) (hdec : s.decodesTo name value id)
    (hne : id ≠ "") :
    s.New (MemStorage.Save m id values).1 r name =
      ⟨{ s.freshSession name with Values := values, IsNew := false }, none,
        (MemStorage.Save m id values).1, [.storageLoad id]⟩ := by
  have hread : s.readSessionID r name = .ok id := by
    rcases hdec with ⟨hc, rfl⟩ | ⟨codec, hc, hd⟩
    · simp [Store.readSessionID, hr, hc]
    · simp [Store.readSessionID, hr, hc, hd]
  have hload : MemStorage.Load (MemStorage.Save m id values).1 id = .ok values := by
    simp [MemStorage.Save, MemStorage.Load, GoMap.get_set_self]
  simp [Store.New, hread, hne, hstorage, MemStorage.asStorage, hload]

/-- C1 as stated fails for an id that is not suitable as a cookie value. The
generator returns `a;b`; `Store.Save` of a never-saved session with values
`{"a": 1}` returns no error, stores the values under `a;b` and passes the
cookie `sid` with value `a;b` to `http.SetCookie`, which drops the semicolon:
the next request carries `sid=ab`, and `Store.New` on it returns a
`SessionValuesError` and a session with `IsNew = true` and no values. -/
theorem C1_unsafe_id_counterexample :
    memStoreUnsafeID.generateID noRandom = .ok "a;b" ∧
    sessionA1.ID = "" ∧ 0 ≤ sessionA1.Options.MaxAge ∧ sessionA1.Values = valuesA1 ∧
    (memStoreUnsafeID.Save ⟨none⟩ noRandom sessionA1).err = none ∧
    (memStoreUnsafeID.Save ⟨none⟩ noRandom sessionA1).storage =
      ⟨some [("a;b", valuesA1)]⟩ ∧
    cookiesWritten (memStoreUnsafeID.Save ⟨none⟩ noRandom sessionA1).calls =
      [NewCookie "sid" "a;b" sessionA1.Options] ∧
    Request.carrying (cookiesWritten (memStoreUnsafeID.Save ⟨none⟩ noRandom sessionA1).calls) =
      ⟨[("sid", "ab")]⟩ ∧
    (memStoreUnsafeID.New (memStoreUnsafeID.Save ⟨none⟩ noRandom sessionA1).storage
        ⟨[("sid", "ab")]⟩ "sid").err =
      some (.sessionValuesError (.errorString "no value found for id: ab")) ∧
    (memStoreUnsafeID.New (memStoreUnsafeID.Save ⟨none⟩ noRandom sessionA1).storage
        ⟨[("sid", "ab")]⟩ "sid").session.IsNew = true ∧
    (memStoreUnsafeID.New (memStoreUnsafeID.Save ⟨none⟩ noRandom sessionA1).storage
        ⟨[("sid", "ab")]⟩ "sid").session.Values = [] := by
  refine ⟨rfl, rfl, by decide, rfl, by decide, by decide, by decide, by decide, by decide,
    by decide, by decide⟩

/-- C1, amended. For every store over a `MemStorage` in any state, with no
`CookieCodec` or one whose `Decode` undoes `Encode` on the session's id, whose
id generation returns a non-empty id, and for every session with an empty id,
`MaxAge >= 0` and a name that is a valid cookie name, provided the value
written to the cookie (the id, or what `Encode` returns for it) is suitable as
a cookie value: `Store.Save` returns no error and passes exactly one cookie to
`http.SetCookie`; the next request of a client that sends this cookie back as
the response carried it has it under the session's name with the value
written; and `Store.New` on that request, or on any request that has this
cookie under the session's name, on the storage as `Save` left it returns no
error and a session with `IsNew = false` and the values that were saved. -/
theorem C1_save_then_new_cookie_safe (s : Store MemStorage) (m : MemStorage)
    (newRandom : Except GoError UUID) (session : Session) (id : String)
    (hstorage : s.Storage = MemStorage.asStorage)
    (hcodec : ∀ codec, s.CookieCodec = some codec → codec.roundTripsAt session.Name id)
    (hgen : s.generateID newRandom = .ok id) (hne : id ≠ "")
    (hid : session.ID = "") (hage : 0 ≤ session.Options.MaxAge)
    (hname : isCookieNameValid session.Name = true)
    (hsafe : ∀ value, s.encodesTo session.Name id value → cookieSafe value = true) :
    (s.Save m newRandom session).err = none ∧
    ∃ value, s.encodesTo session.Name id value ∧
      cookiesWritten (s.Save m newRandom session).calls =
        [NewCookie session.Name value session.Options] ∧
      (Request.carrying (cookiesWritten (s.Save m newRandom session).calls)).Cookie
          session.Name = .ok (session.Name, value) ∧
      ∀ r : Request, r.Cookie session.Name = .ok (session.Name, value) →
        (s.New (s.Save m newRandom session).storage r session.Name).err = none ∧
        (s.New (s.Save m newRandom session).storage r session.Name).session.IsNew = false ∧
        (s.New (s.Save m newRandom session).storage r session.Name).session.Values =
          session.Values := by
  obtain ⟨value, henc, hdec, hsave⟩ :=
    Store.Save_MemStorage_fresh s m newRandom session id hstorage hcodec hgen hne hid hage
  rw [hsave]
  refine ⟨rfl, value, henc, rfl, ?_, ?_⟩
  · exact Request.carrying_single session.Name value session.Options hname (hsafe value henc)
  · intro r hr
    rw [Store.New_MemStorage_loaded s m r session.Name value id session.Values hstorage hr
      hdec hne]
    exact ⟨rfl, rfl, rfl⟩

/-- C1 amended, at the values `{"a": 1}`: a never-saved session named `sid` is
saved through a store over an empty `MemStorage` with the reversing codec, the
client sends back `sid=1-di`, and `Store.New` loads the values. -/
theorem C1_save_then_new_cookie_safe_witness :
    (memStore (some reverseCodec)).generateID noRandom = .ok "id-1" ∧
    sessionA1.ID = "" ∧ 0 ≤ sessionA1.Options.MaxAge ∧
    isCookieNameValid sessionA1.Name = true ∧ cookieSafe "1-di" = true ∧
    sessionA1.Values = [(.string (.utf8 "a"), .int 1)] ∧
    ((memStore (some reverseCodec)).Save ⟨none⟩ noRandom sessionA1).err = none ∧
    Request.carrying
        (cookiesWritten ((memStore (some reverseCodec)).Save ⟨none⟩ noRandom sessionA1).calls) =
      ⟨[("sid", "1-di")]⟩ ∧
    ((memStore (some reverseCodec)).New
        ((memStore (some reverseCodec)).Save ⟨none⟩ noRandom sessionA1).storage
        ⟨[("sid", "1-di")]⟩ "sid").err = none ∧
    ((memStore (some reverseCodec)).New
        ((memStore (some reverseCodec)).Save ⟨none⟩ noRandom sessionA1).storage
        ⟨[("sid", "1-di")]⟩ "sid").session.IsNew = false ∧
    ((memStore (some reverseCodec)).New
        ((memStore (some reverseCodec)).Save ⟨none⟩ noRandom sessionA1).storage
        ⟨[("sid", "1-di")]⟩ "sid").session.Values = [(.string (.utf8 "a"), .int 1)] :=
  have hsafe : ∀ value, (memStore (some reverseCodec)).encodesTo sessionA1.Name "id-1" value →
      cookieSafe value = true := by
    intro value h
    rcases h with ⟨h, _⟩ | ⟨codec, h, he⟩
    · cases h
    · cases h
      cases he
      decide
  have h := C1_save_then_new_cookie_safe (memStore (some reverseCodec)) ⟨none⟩ noRandom
    sessionA1 "id-1" rfl
    (fun codec hc => by cases hc; exact reverseCodec_roundTripsAt _ _) rfl (by decide) rfl
    (by decide) (by decide) hsafe
  have hnew : ∀ r : Request, r.Cookie sessionA1.Name = .ok (sessionA1.Name, "1-di") →
      ((memStore (some reverseCodec)).New
          ((memStore (some reverseCodec)).Save ⟨none⟩ noRandom sessionA1).storage r
          sessionA1.Name).err = none ∧
      ((memStore (some reverseCodec)).New
          ((memStore (some reverseCodec)).Save ⟨none⟩ noRandom sessionA1).storage r
          sessionA1.Name).session.IsNew = false ∧
      ((memStore (some reverseCodec)).New
          ((memStore (some reverseCodec)).Save ⟨none⟩ noRandom sessionA1).storage r
          sessionA1.Name).session.Values = sessionA1.Values := by
    obtain ⟨value, henc, hw, _, hr⟩ := h.2
    have hv : value = "1-di" := by
      rcases henc with ⟨hc, _⟩ | ⟨codec, hc, he⟩
      · cases hc
      · cases hc
        cases he
        rfl
    subst hv
    exact hr
  ⟨rfl, rfl, by decide, by decide, by decide, rfl, h.1, by decide,
    (hnew ⟨[("sid", "1-di")]⟩ rfl).1, (hnew ⟨[("sid", "1-di")]⟩ rfl).2.1,
    (hnew ⟨[("sid", "1-di")]⟩ rfl).2.2⟩

/-- C3 fails on the code: `Store.New` never assigns the session's id. With
`{"a": 1}` stored under `abc` and the request cookie `sid=abc`, the session
comes back loaded (`IsNew = false`) with an empty id, and the following
`Store.Save` asks the generator for a new id and writes the values under
`id-1`, leaving the entry `abc` as it was. -/
theorem C3_new_leaves_id_empty :
    ((memStore none).New memWithABC requestABC "sid").err = none ∧
    ((memStore none).New memWithABC requestABC "sid").session.IsNew = false ∧
    ((memStore none).New memWithABC requestABC "sid").session.Values = valuesA1 ∧
    ((memStore none).New memWithABC requestABC "sid").session.ID = "" ∧
    ((memStore none).Save memWithABC noRandom
        ((memStore none).New memWithABC requestABC "sid").session).calls =
      [.generateID, .storageSave "id-1" valuesA1,
        .setCookie (NewCookie "sid" "id-1" ⟨"", "", 0, false, false, 0⟩)] ∧
    ((memStore none).Save memWithABC noRandom
        ((memStore none).New memWithABC requestABC "sid").session).storage =
      ⟨some [("abc", valuesA1), ("id-1", valuesA1)]⟩ := by
  decide

end Gsession

/-! ## `float64` conversion of integers -/

namespace Gsession

theorem shiftTo53_spec (fuel n : Nat) :
    2 ^ shiftTo53 fuel n * 2 ^ 52 ≤ n ∨ shiftTo53 fuel n = 0 := by
  induction fuel generalizing n with
  | zero => exact Or.inr rfl
  | succ fuel ih =>
    by_cases h : n < 2 ^ 53
    · exact Or.inr (by simp only [shiftTo53]; rw [if_pos h])
    · left
      simp only [shiftTo53]
      rw [if_neg h]
      rcases ih (n / 2) with h1 | h1
      · have h2 : 2 * (n / 2) ≤ n := Nat.mul_div_le n 2
        rw [pow_succ]
        omega
      · rw [h1]
        norm_num at h ⊢
        omega

theorem shiftTo53_enough (fuel n : Nat) (h : n ≤ fuel) :
    n / 2 ^ shiftTo53 fuel n < 2 ^ 53 := by
  induction fuel generalizing n with
  | zero =>
    have : n = 0 := by omega
    subst this
    simp [shiftTo53]
  | succ fuel ih =>
    by_cases hlt : n < 2 ^ 53
    · simp only [shiftTo53]
      rw [if_pos hlt]
      simpa using hlt
    · simp only [shiftTo53]
      rw [if_neg hlt, pow_succ, Nat.mul_comm, ← Nat.div_div_eq_div_mul]
      exact ih (n / 2) (by omega)

theorem roundFloat64Nat_le (n : Nat) : roundFloat64Nat n ≤ 2 * n := by
  unfold roundFloat64Nat
  rcases shiftTo53_spec n n with h | h
  · have hpos : 2 ^ shiftTo53 n n ≤ n := by
      have : 2 ^ shiftTo53 n n * 1 ≤ 2 ^ shiftTo53 n n * 2 ^ 52 :=
        Nat.mul_le_mul_left _ (Nat.one_le_two_pow)
      omega
    have hq : n / 2 ^ shiftTo53 n n * 2 ^ shiftTo53 n n ≤ n := Nat.div_mul_le_self _ _
    simp only []
    split
    · rw [Nat.add_mul]
      omega
    · omega
  · rw [h]
    simp [Nat.mod_one]
    omega

theorem Float64.ofInt_isFinite (n : Int) (h : -(2 : Int) ^ 63 ≤ n ∧ n < (2 : Int) ^ 63) :
    (Float64.ofInt n).isFinite = true := by
  have hle := roundFloat64Nat_le n.natAbs
  have habs : n.natAbs ≤ 2 ^ 63 := by
    norm_num at h ⊢
    omega
  have hlim : 2 * 2 ^ 63 < float64Limit := by
    unfold float64Limit
    norm_num
  have hlt : roundFloat64Nat n.natAbs < float64Limit := by omega
  unfold Float64.ofInt
  by_cases h0 : roundFloat64Nat n.natAbs = 0
  · simp [h0, Float64.isFinite]
  · simp [h0, hlt, Float64.isFinite]

end Gsession

/-! ## Maps built by assignment -/

namespace Gsession

theorem GoMap.set_fresh {κ ν : Type} [DecidableEq κ] (m : List (κ × ν)) (k : κ) (v : ν)
    (h : k ∉ GoMap.keys m) : GoMap.set m k v = m ++ [(k, v)] := by
  induction m with
  | nil => rfl
  | cons e rest ih =>
    obtain ⟨k', v'⟩ := e
    simp only [GoMap.keys, List.map_cons, List.mem_cons, not_or] at h
    have hne : ¬ k' = k := fun e => h.1 e.symm
    simp only [GoMap.set, hne, if_false, List.cons_append]
    rw [ih (by simpa [GoMap.keys] using h.2)]

theorem GoMap.foldl_set_fresh {κ κ' ν : Type} [DecidableEq κ'] (f : κ → κ')
    (l : List (κ × ν)) (acc : List (κ' × ν))
    (h : (GoMap.keys acc ++ l.map (fun e => f e.1)).Nodup) :
    l.foldl (fun m e => GoMap.set m (f e.1) e.2) acc =
      acc ++ l.map (fun e => (f e.1, e.2)) := by
  induction l generalizing acc with
  | nil => simp
  | cons e rest ih =>
    have hfresh : f e.1 ∉ GoMap.keys acc := by
      intro hmem
      have := List.nodup_append.mp h
      exact this.2.2 hmem (by simp)
    simp only [List.foldl_cons, List.map_cons]
    rw [GoMap.set_fresh acc _ _ hfresh, ih]
    · simp
    · simpa [GoMap.keys, List.append_assoc] using h

theorem GoMap.ofList_nodup {κ ν : Type} [DecidableEq κ] (l : List (κ × ν))
    (h : (l.map Prod.fst).Nodup) : GoMap.ofList l = l := by
  have := GoMap.foldl_set_fresh (fun k : κ => k) l [] (by simpa [GoMap.keys] using h)
  simpa [GoMap.ofList] using this

theorem GoMap.mem_set {κ ν : Type} [DecidableEq κ] (m : List (κ × ν)) (k : κ) (v : ν)
    (e : κ × ν) (h : e ∈ GoMap.set m k v) : e = (k, v) ∨ e ∈ m := by
  induction m with
  | nil => simpa [GoMap.set] using h
  | cons e0 rest ih =>
    obtain ⟨k0, v0⟩ := e0
    by_cases hk : k0 = k
    · simp only [GoMap.set, hk, if_true, List.mem_cons] at h
      rcases h with h | h
      · exact Or.inl h
      · exact Or.inr (List.mem_cons_of_mem _ h)
    · simp only [GoMap.set, hk, if_false, List.mem_cons] at h
      rcases h with h | h
      · exact Or.inr (by rw [h]; exact List.mem_cons_self _ _)
      · rcases ih h with h | h
        · exact Or.inl h
        · exact Or.inr (List.mem_cons_of_mem _ h)

theorem GoMap.mem_foldl_set {κ κ' ν : Type} [DecidableEq κ'] (f : κ → κ')
    (l : List (κ × ν)) (acc : List (κ' × ν)) (e : κ' × ν)
    (h : e ∈ l.foldl (fun m e => GoMap.set m (f e.1) e.2) acc) :
    e ∈ acc ∨ ∃ e0 ∈ l, e = (f e0.1, e0.2) := by
  induction l generalizing acc with
  | nil => exact Or.inl h
  | cons e0 rest ih =>
    simp only [List.foldl_cons] at h
    rcases ih _ h with h | ⟨e1, h1, h2⟩
    · rcases GoMap.mem_set acc _ _ e h with h | h
      · exact Or.inr ⟨e0, List.mem_cons_self _ _, h⟩
      · exact Or.inl h
    · exact Or.inr ⟨e1, List.mem_cons_of_mem _ h1, h2⟩

theorem GoMap.mem_setSorted {ν : Type} (m : List (GoString × ν)) (k : GoString) (v : ν)
    (e : GoString × ν) (h : e ∈ GoMap.setSorted m k v) : e = (k, v) ∨ e ∈ m := by
  induction m with
  | nil => simpa [GoMap.setSorted] using h
  | cons e0 rest ih =>
    obtain ⟨k0, v0⟩ := e0
    by_cases hk : k0 = k
    · simp only [GoMap.setSorted, hk, if_true, List.mem_cons] at h
      rcases h with h | h
      · exact Or.inl h
      · exact Or.inr (List.mem_cons_of_mem _ h)
    · by_cases hlt : k.bytes < k0.bytes
      · simp only [GoMap.setSorted, hk, hlt, if_false, if_true, List.mem_cons] at h
        rcases h with h | h | h
        · exact Or.inl h
        · exact Or.inr (by rw [h]; exact List.mem_cons_self _ _)
        · exact Or.inr (List.mem_cons_of_mem _ h)
      · simp only [GoMap.setSorted, hk, hlt, if_false, List.mem_cons] at h
        rcases h with h | h
        · exact Or.inr (by rw [h]; exact List.mem_cons_self _ _)
        · rcases ih h with h | h
          · exact Or.inl h
          · exact Or.inr (List.mem_cons_of_mem _ h)

theorem GoMap.mem_foldl_setSorted {ν : Type} (l acc : List (GoString × ν))
    (e : GoString × ν)
    (h : e ∈ l.foldl (fun m e => GoMap.setSorted m e.1 e.2) acc) : e ∈ acc ∨ e ∈ l := by
  induction l generalizing acc with
  | nil => exact Or.inl h
  | cons e0 rest ih =>
    simp only [List.foldl_cons] at h
    rcases ih _ h with h | h
    · rcases GoMap.mem_setSorted acc _ _ e h with h | h
      · exact Or.inr (by rw [h]; exact List.mem_cons_self _ _)
      · exact Or.inl h
    · exact Or.inr (List.mem_cons_of_mem _ h)

theorem GoMap.setSorted_last {ν : Type} (m : List (GoString × ν)) (k : GoString) (v : ν)
    (h : ∀ e ∈ m, e.1.bytes < k.bytes) : GoMap.setSorted m k v = m ++ [(k, v)] := by
  induction m with
  | nil => rfl
  | cons e0 rest ih =>
    obtain ⟨k0, v0⟩ := e0
    have h0 : k0.bytes < k.bytes := h (k0, v0) (List.mem_cons_self _ _)
    have hne : ¬ k0 = k := fun e => lt_irrefl _ (e ▸ h0)
    have hnlt : ¬ k.bytes < k0.bytes := not_lt.mpr (le_of_lt h0)
    simp only [GoMap.setSorted, hne, hnlt, if_false, List.cons_append]
    rw [ih (fun e he => h e (List.mem_cons_of_mem _ he))]

theorem GoMap.foldl_setSorted_sorted {ν : Type} (l acc : List (GoString × ν))
    (h : ((acc ++ l).map (fun e => e.1.bytes)).Sorted (· < ·)) :
    l.foldl (fun m e => GoMap.setSorted m e.1 e.2) acc = acc ++ l := by
  induction l generalizing acc with
  | nil => simp
  | cons e0 rest ih =>
    have hlast : ∀ e ∈ acc, e.1.bytes < e0.1.bytes := by
      intro e he
      simp only [List.map_append, List.map_cons, List.Sorted, List.pairwise_append] at h
      exact h.2.2 _ (List.mem_map_of_mem _ he) _ (List.mem_cons_self _ _)
    simp only [List.foldl_cons]
    rw [GoMap.setSorted_last acc _ _ hlast, ih]
    · simp
    · simpa using h

theorem GoMap.ofListSorted_sorted {ν : Type} (l : List (GoString × ν))
    (h : (l.map (fun e => e.1.bytes)).Sorted (· < ·)) : GoMap.ofListSorted l = l := by
  have := GoMap.foldl_setSorted_sorted l [] (by simpa using h)
  simpa [GoMap.ofListSorted] using this

theorem GoMap.mem_ofListSorted {ν : Type} (l : List (GoString × ν)) (e : GoString × ν)
    (h : e ∈ GoMap.ofListSorted l) : e ∈ l := by
  rcases GoMap.mem_foldl_setSorted l [] e h with h | h
  · cases h
  · exact h

end Gsession
/-! ## `encoding/json`: decoding what was encoded -/

namespace Gsession

theorem encodeMembers_eq_map (m : List (GoString × GoValue)) :
    encodeMembers m = m.map (fun e => (e.1, encodeValue e.2)) := by
  induction m with
  | nil => rfl
  | cons e rest ih =>
    obtain ⟨k, v⟩ := e
    simp [encodeMembers, ih]

theorem jsonNativeMembers_iff (m : List (GoString × GoValue)) :
    GoValue.jsonNativeMembers m = true ↔
      ∀ e ∈ m, e.1.isUTF8 = true ∧ GoValue.jsonNative e.2 = true := by
  induction m with
  | nil => simp [GoValue.jsonNativeMembers]
  | cons e rest ih =>
    obtain ⟨k, v⟩ := e
    simp only [GoValue.jsonNativeMembers, Bool.and_eq_true, ih, List.mem_cons,
      forall_eq_or_imp, and_assoc]

theorem validMembers_iff (m : List (GoString × GoValue)) :
    GoValue.validMembers m = true ↔
      ∀ e ∈ m, e.1.valid = true ∧ GoValue.valid e.2 = true := by
  induction m with
  | nil => simp [GoValue.validMembers]
  | cons e rest ih =>
    obtain ⟨k, v⟩ := e
    simp only [GoValue.validMembers, Bool.and_eq_true, ih, List.mem_cons,
      forall_eq_or_imp, and_assoc]

theorem GoString.utf8_jsonText (k : GoString) (h : k.isUTF8 = true) :
    GoString.utf8 k.jsonText = k := by
  cases k with
  | utf8 s => rfl
  | raw bytes => simp [GoString.isUTF8] at h

theorem collectMembers_decodeMembers (S : List (GoString × Except GoError JSON))
    (h : ∀ e ∈ S, ∃ j, e.2 = .ok j ∧ (decodeValue j).2 = none) :
    ∃ ms, collectMembers S = .ok ms ∧ decodeMembers ms = (S.map decodedEntry, none) := by
  induction S with
  | nil => exact ⟨[], rfl, rfl⟩
  | cons e rest ih =>
    obtain ⟨k, r⟩ := e
    obtain ⟨j, hj, hd⟩ := h (k, r) (List.mem_cons_self _ _)
    simp only at hj
    subst hj
    obtain ⟨ms, hms, hdec⟩ := ih (fun e he => h e (List.mem_cons_of_mem _ he))
    refine ⟨(k.jsonText, j) :: ms, by simp [collectMembers, hms], ?_⟩
    simp [decodeMembers, hdec, hd, firstError, decodedEntry]

theorem decodedEntry_encoded (m : List (GoString × GoValue))
    (h : ∀ e ∈ m, e.1.isUTF8 = true ∧ ∃ j, encodeValue e.2 = .ok j ∧ decodeValue j = (e.2, none)) :
    (encodeMembers m).map decodedEntry = m := by
  rw [encodeMembers_eq_map, List.map_map]
  conv_rhs => rw [← List.map_id m]
  apply List.map_congr_left
  intro e he
  obtain ⟨hk, j, hj, hd⟩ := h e he
  simp [decodedEntry, hj, hd, GoString.utf8_jsonText e.1 hk]

theorem encoded_members_ok (m : List (GoString × GoValue))
    (h : ∀ e ∈ m, e.1.isUTF8 = true ∧ ∃ j, encodeValue e.2 = .ok j ∧ decodeValue j = (e.2, none))
    (S : List (GoString × Except GoError JSON)) (hS : ∀ e ∈ S, e ∈ encodeMembers m) :
    ∀ e ∈ S, ∃ j, e.2 = .ok j ∧ (decodeValue j).2 = none := by
  intro e he
  have := hS e he
  rw [encodeMembers_eq_map, List.mem_map] at this
  obtain ⟨e0, he0, rfl⟩ := this
  obtain ⟨_, j, hj, hd⟩ := h e0 he0
  exact ⟨j, hj, by rw [hd]⟩

theorem sortByKey_encodeMembers_sorted (m : List (GoString × GoValue))
    (h : (m.map (fun e => e.1.bytes)).Sorted (· < ·)) :
    sortByKey (encodeMembers m) = encodeMembers m := by
  apply List.Sorted.insertionSort_eq
  rw [encodeMembers_eq_map]
  simp only [List.Sorted, List.pairwise_map] at h ⊢
  exact h.imp (fun hlt => le_of_lt hlt)

mutual
theorem decodeValue_encodeValue :
    ∀ v : GoValue, GoValue.valid v = true → GoValue.jsonNative v = true →
      ∃ j, encodeValue v = .ok j ∧ decodeValue j = (v, none)
  | .nil, _, _ => ⟨.null, rfl, rfl⟩
  | .bool b, _, _ => ⟨.bool b, rfl, rfl⟩
  | .int n, _, hn => by simp [GoValue.jsonNative] at hn
  | .float64 (.finite neg mant exp), _, _ => ⟨.number (.finite neg mant exp), rfl, rfl⟩
  | .float64 (.inf neg), _, hn => by simp [GoValue.jsonNative, Float64.isFinite] at hn
  | .float64 .nan, _, hn => by simp [GoValue.jsonNative, Float64.isFinite] at hn
  | .string (.utf8 s), _, _ => ⟨.string s, rfl, rfl⟩
  | .string (.raw bytes), _, hn => by simp [GoValue.jsonNative, GoString.isUTF8] at hn
  | .nilSlice, _, hn => by simp [GoValue.jsonNative] at hn
  | .nilStrMap, _, hn => by simp [GoValue.jsonNative] at hn
  | .other typeName encoding, _, hn => by simp [GoValue.jsonNative] at hn
  | .slice xs, hv, hn => by
      simp only [GoValue.valid] at hv
      simp only [GoValue.jsonNative] at hn
      obtain ⟨js, hjs, hd⟩ := decodeList_encodeList xs hv hn
      exact ⟨.array js, by simp [encodeValue, hjs], by simp [decodeValue, hd]⟩
  | .strMap m, hv, hn => by
      simp only [GoValue.valid, Bool.and_eq_true, decide_eq_true_eq] at hv
      simp only [GoValue.jsonNative] at hn
      have hall := decode_encode_members m hv.2 hn
      obtain ⟨ms, hms, hd⟩ := collectMembers_decodeMembers (encodeMembers m)
        (encoded_members_ok m hall _ (fun e he => he))
      rw [decodedEntry_encoded m hall] at hd
      refine ⟨.object ms, ?_, ?_⟩
      · simp [encodeValue, sortByKey_encodeMembers_sorted m hv.1, hms]
      · simp [decodeValue, hd, GoMap.ofListSorted_sorted m hv.1]
theorem decodeList_encodeList :
    ∀ xs : List GoValue, GoValue.validList xs = true → GoValue.jsonNativeList xs = true →
      ∃ js, encodeList xs = .ok js ∧ decodeList js = (xs, none)
  | [], _, _ => ⟨[], rfl, rfl⟩
  | v :: vs, hv, hn => by
      simp only [GoValue.validList, Bool.and_eq_true] at hv
      simp only [GoValue.jsonNativeList, Bool.and_eq_true] at hn
      obtain ⟨j, hj, hd⟩ := decodeValue_encodeValue v hv.1 hn.1
      obtain ⟨js, hjs, hds⟩ := decodeList_encodeList vs hv.2 hn.2
      exact ⟨j :: js, by simp [encodeList, hj, hjs], by simp [decodeList, hd, hds, firstError]⟩
theorem decode_encode_members :
    ∀ m : List (GoString × GoValue), GoValue.validMembers m = true →
      GoValue.jsonNativeMembers m = true →
      ∀ e ∈ m, e.1.isUTF8 = true ∧ ∃ j, encodeValue e.2 = .ok j ∧ decodeValue j = (e.2, none)
  | [], _, _ => by simp
  | (k, v) :: vs, hv, hn => by
      simp only [GoValue.validMembers, Bool.and_eq_true] at hv
      simp only [GoValue.jsonNativeMembers, Bool.and_eq_true] at hn
      intro e he
      simp only [List.mem_cons] at he
      rcases he with rfl | he
      · exact ⟨hn.1.1, decodeValue_encodeValue v hv.1.2 hn.1.2⟩
      · exact decode_encode_members vs hv.2 hn.2 e he
end

mutual
theorem decodeValue_jsonNative : ∀ j : JSON, GoValue.jsonNative (decodeValue j).1 = true
  | .null => rfl
  | .bool b => rfl
  | .number (.finite neg mant exp) => rfl
  | .number (.inf neg) => rfl
  | .number .nan => rfl
  | .string s => rfl
  | .array xs => by
      simp only [decodeValue, GoValue.jsonNative]
      exact decodeList_jsonNative xs
  | .object ms => by
      simp only [decodeValue, GoValue.jsonNative]
      rw [jsonNativeMembers_iff]
      intro e he
      exact decodeMembers_jsonNative ms e (GoMap.mem_ofListSorted _ e he)
theorem decodeList_jsonNative :
    ∀ js : List JSON, GoValue.jsonNativeList (decodeList js).1 = true
  | [] => rfl
  | j :: js => by
      simp only [decodeList, GoValue.jsonNativeList, Bool.and_eq_true]
      exact ⟨decodeValue_jsonNative j, decodeList_jsonNative js⟩
theorem decodeMembers_jsonNative :
    ∀ ms : List (String × JSON), ∀ e ∈ (decodeMembers ms).1,
      e.1.isUTF8 = true ∧ GoValue.jsonNative e.2 = true
  | [] => by simp [decodeMembers]
  | (k, j) :: ms => by
      intro e he
      simp only [decodeMembers, List.mem_cons] at he
      rcases he with rfl | he
      · exact ⟨rfl, decodeValue_jsonNative j⟩
      · exact decodeMembers_jsonNative ms e he
end

end Gsession

/-! ## `JSONMarshaler` -/

namespace Gsession

theorem JSONMarshaler.compatLoop_nonString (values : Values)
    (acc : List (GoString × GoValue)) (h : ∃ k ∈ GoMap.keys values, ∀ s, k ≠ .string s) :
    ∃ k ∈ GoMap.keys values, (∀ s, k ≠ .string s) ∧
      JSONMarshaler.compatLoop values acc =
        .error (.errorString ("JSONMarshaler: only string keys supported: " ++ k.typeName)) := by
  induction values generalizing acc with
  | nil => simp [GoMap.keys] at h
  | cons e rest ih =>
    obtain ⟨k, v⟩ := e
    by_cases hk : ∃ s, k = .string s
    · obtain ⟨s, rfl⟩ := hk
      have hrest : ∃ k ∈ GoMap.keys rest, ∀ s, k ≠ .string s := by
        obtain ⟨k2, hmem, hk2⟩ := h
        simp only [GoMap.keys, List.map_cons, List.mem_cons] at hmem
        rcases hmem with rfl | hmem
        · exact absurd rfl (hk2 s)
        · exact ⟨k2, hmem, hk2⟩
      obtain ⟨k2, hmem, hk2, heq⟩ := ih (GoMap.set acc s v) hrest
      exact ⟨k2, by simp only [GoMap.keys, List.map_cons, List.mem_cons]; exact Or.inr hmem,
        hk2, by simpa [JSONMarshaler.compatLoop] using heq⟩
    · have hk' : ∀ s, k ≠ .string s := fun s e => hk ⟨s, e⟩
      refine ⟨k, by simp [GoMap.keys], hk', ?_⟩
      cases k <;> first | rfl | exact absurd rfl (hk' _)

theorem JSONMarshaler.compatLoop_ok (values : Values) (acc compat : List (GoString × GoValue))
    (h : JSONMarshaler.compatLoop values acc = .ok compat)
    (hnodup : (GoMap.keys (stringKeyed acc) ++ GoMap.keys values).Nodup) :
    stringKeyed compat = stringKeyed acc ++ values := by
  induction values generalizing acc with
  | nil =>
    simp only [JSONMarshaler.compatLoop, Except.ok.injEq] at h
    simp [h]
  | cons e rest ih =>
    obtain ⟨k, v⟩ := e
    cases k with
    | string s =>
      simp only [JSONMarshaler.compatLoop] at h
      have hfresh : s ∉ GoMap.keys acc := by
        intro hmem
        have := (List.nodup_append.mp hnodup).2.2
        refine this (a := GoValue.string s) ?_ (by simp [GoMap.keys])
        simp only [GoMap.keys, stringKeyed, List.map_map, List.mem_map] at hmem ⊢
        obtain ⟨e, he, rfl⟩ := hmem
        exact ⟨e, he, rfl⟩
      rw [GoMap.set_fresh acc s v hfresh] at h
      rw [ih (acc ++ [(s, v)]) h]
      · simp [stringKeyed]
      · simpa [stringKeyed, GoMap.keys, List.append_assoc] using hnodup
    | nil => simp [JSONMarshaler.compatLoop] at h
    | bool b => simp [JSONMarshaler.compatLoop] at h
    | int n => simp [JSONMarshaler.compatLoop] at h
    | float64 x => simp [JSONMarshaler.compatLoop] at h
    | slice xs => simp [JSONMarshaler.compatLoop] at h
    | nilSlice => simp [JSONMarshaler.compatLoop] at h
    | strMap m => simp [JSONMarshaler.compatLoop] at h
    | nilStrMap => simp [JSONMarshaler.compatLoop] at h
    | other typeName encoding => simp [JSONMarshaler.compatLoop] at h

theorem JSONMarshaler.compatLoop_total (values : Values) (acc : List (GoString × GoValue))
    (h : ∀ k ∈ GoMap.keys values, ∃ s, k = .string s) :
    ∃ compat, JSONMarshaler.compatLoop values acc = .ok compat := by
  induction values generalizing acc with
  | nil => exact ⟨acc, rfl⟩
  | cons e rest ih =>
    obtain ⟨k, v⟩ := e
    obtain ⟨s, rfl⟩ := h k (by simp [GoMap.keys])
    have hrest : ∀ k ∈ GoMap.keys rest, ∃ s, k = .string s := fun k hk =>
      h k (by simp only [GoMap.keys, List.map_cons, List.mem_cons]; exact Or.inr hk)
    simpa [JSONMarshaler.compatLoop] using ih (GoMap.set acc s v) hrest

/-- C10. For every value mapping (a Go map: no key twice): if some key is not
a string, `JSONMarshaler.Marshal` returns no bytes and the error of the key
check, naming the type of such a key; if every key is a string, the key check
lets it pass and `json.Marshal` is given a `map[string]interface{}` with
exactly the entries of the mapping, so the result of `Marshal` is the result
of `json.Marshal` on these entries. -/
theorem C10_marshal_string_keys (values : Values) (hmap : (GoMap.keys values).Nodup) :
    ((∃ k ∈ GoMap.keys values, ∀ s, k ≠ .string s) →
      (JSONMarshaler.Marshal values).1 = none ∧
      ∃ k ∈ GoMap.keys values, (∀ s, k ≠ .string s) ∧
        (JSONMarshaler.Marshal values).2 =
          some (.errorString
            ("JSONMarshaler: only string keys supported: " ++ k.typeName))) ∧
    ((∀ k ∈ GoMap.keys values, ∃ s, k = .string s) →
      ∃ compatValues, JSONMarshaler.compatLoop values [] = .ok compatValues ∧
        stringKeyed compatValues = values ∧
        JSONMarshaler.Marshal values = jsonMarshal compatValues) := by
  constructor
  · intro h
    obtain ⟨k, hmem, hk, heq⟩ := JSONMarshaler.compatLoop_nonString values [] h
    exact ⟨by simp [JSONMarshaler.Marshal, heq], k, hmem, hk,
      by simp [JSONMarshaler.Marshal, heq]⟩
  · intro h
    obtain ⟨compat, hc⟩ := JSONMarshaler.compatLoop_total values [] h
    refine ⟨compat, hc, ?_, by simp [JSONMarshaler.Marshal, hc]⟩
    have := JSONMarshaler.compatLoop_ok values [] compat hc
      (by simpa [stringKeyed, GoMap.keys] using hmap)
    simpa [stringKeyed] using this

/-- C10, at `{"a": 1, 2: nil}`, which is rejected for its key of type `int`,
and at `{"a": 1}`, which passes the key check. -/
theorem C10_marshal_string_keys_witness :
    (GoMap.keys valuesIntKey).Nodup ∧
    (∃ k ∈ GoMap.keys valuesIntKey, ∀ s, k ≠ .string s) ∧
    (JSONMarshaler.Marshal valuesIntKey).1 = none ∧
    (∃ k ∈ GoMap.keys valuesIntKey, (∀ s, k ≠ .string s) ∧
      (JSONMarshaler.Marshal valuesIntKey).2 =
        some (.errorString
          ("JSONMarshaler: only string keys supported: " ++ k.typeName))) ∧
    (∃ compatValues, JSONMarshaler.compatLoop valuesA1 [] = .ok compatValues ∧
      stringKeyed compatValues = valuesA1 ∧
      JSONMarshaler.Marshal valuesA1 = jsonMarshal compatValues) :=
  have hkey : ∃ k ∈ GoMap.keys valuesIntKey, ∀ s, k ≠ GoValue.string s :=
    ⟨.int 2, by decide, fun s h => by cases h⟩
  have hstr : ∀ k ∈ GoMap.keys valuesA1, ∃ s, k = GoValue.string s := by
    intro k hk
    simp only [GoMap.keys, valuesA1, List.map_cons, List.map_nil, List.mem_singleton] at hk
    exact ⟨.utf8 "a", hk⟩
  ⟨by decide, hkey, ((C10_marshal_string_keys valuesIntKey (by decide)).1 hkey).1,
    ((C10_marshal_string_keys valuesIntKey (by decide)).1 hkey).2,
    (C10_marshal_string_keys valuesA1 (by decide)).2 hstr⟩

theorem stringKeyed_perm {a b : List (GoString × GoValue)} (h : a.Perm b) :
    (stringKeyed a).Perm (stringKeyed b) :=
  h.map _

theorem stringKeyed_keys_nodup (m : List (GoString × GoValue))
    (h : (GoMap.keys (stringKeyed m)).Nodup) : (m.map Prod.fst).Nodup := by
  have h2 : GoMap.keys (stringKeyed m) = (m.map Prod.fst).map GoValue.string := by
    simp [GoMap.keys, stringKeyed]
  rw [h2] at h
  exact h.of_map _

theorem JSONMarshaler.Unmarshal_jsonNative (b : Bytes) :
    nativeValues (JSONMarshaler.Unmarshal b).1 := by
  have hfold : ∀ compat : List (GoString × GoValue),
      (∀ e ∈ compat, e.1.isUTF8 = true ∧ GoValue.jsonNative e.2 = true) →
      nativeValues
        (compat.foldl (fun values e => GoMap.set values (GoValue.string e.1) e.2) []) := by
    intro compat hc e he
    rcases GoMap.mem_foldl_set GoValue.string compat [] e he with h | ⟨e0, he0, rfl⟩
    · cases h
    · obtain ⟨hk, hv⟩ := hc e0 he0
      refine ⟨?_, hv⟩
      cases hk0 : e0.1 with
      | utf8 s => exact ⟨s, rfl⟩
      | raw bytes => rw [hk0] at hk; simp [GoString.isUTF8] at hk
  have hempty : nativeValues
      (([] : List (GoString × GoValue)).foldl
        (fun values e => GoMap.set values (GoValue.string e.1) e.2) []) := by
    intro e he
    cases he
  cases b with
  | malformed raw => exact hempty
  | json doc =>
    cases doc with
    | null => exact hempty
    | bool x => exact hempty
    | number x => exact hempty
    | string s => exact hempty
    | array xs => exact hempty
    | object ms =>
      simp only [JSONMarshaler.Unmarshal, jsonUnmarshal]
      apply hfold
      intro e he
      have hmem : e ∈ (decodeMembers ms).1 := by
        rcases GoMap.mem_foldl_set (fun k : GoString => k) (decodeMembers ms).1 [] e he with
          h | ⟨e0, he0, rfl⟩
        · cases h
        · exact he0
      exact decodeMembers_jsonNative ms e hmem

theorem JSONMarshaler.compat_of_Marshal (values : Values) (b : Bytes)
    (hnodup : (GoMap.keys values).Nodup)
    (hm : JSONMarshaler.Marshal values = (some b, none)) :
    ∃ compat ms, stringKeyed compat = values ∧
      collectMembers (sortByKey (encodeMembers compat)) = .ok ms ∧
      b = .json (.object ms) := by
  unfold JSONMarshaler.Marshal at hm
  cases hc : JSONMarshaler.compatLoop values [] with
  | error err => rw [hc] at hm; cases hm
  | ok compat =>
    rw [hc] at hm
    simp only [jsonMarshal] at hm
    have hsk : stringKeyed compat = values := by
      have := JSONMarshaler.compatLoop_ok values [] compat hc
        (by simpa [stringKeyed, GoMap.keys] using hnodup)
      simpa [stringKeyed] using this
    cases he : collectMembers (sortByKey (encodeMembers compat)) with
    | error err => rw [he] at hm; cases hm
    | ok ms =>
      rw [he] at hm
      simp only [Prod.mk.injEq, Option.some.injEq, and_true] at hm
      exact ⟨compat, ms, hsk, he, hm.symm⟩

theorem JSONMarshaler.native_entries (compat : List (GoString × GoValue))
    (hvalid : validValues (stringKeyed compat)) (hnative : nativeValues (stringKeyed compat)) :
    ∀ e ∈ compat, e.1.isUTF8 = true ∧
      ∃ j, encodeValue e.2 = .ok j ∧ decodeValue j = (e.2, none) := by
  intro e he
  have hmem : (GoValue.string e.1, e.2) ∈ stringKeyed compat :=
    List.mem_map_of_mem (fun e => (GoValue.string e.1, e.2)) he
  obtain ⟨⟨s, hs⟩, hn⟩ := hnative _ hmem
  have hv := (hvalid.2 _ hmem).2
  simp only [GoValue.string.injEq] at hs
  exact ⟨by rw [hs]; rfl, decodeValue_encodeValue e.2 hv hn⟩

theorem JSONMarshaler.Marshal_accepts_native (values : Values) (hvalid : validValues values)
    (hnative : nativeValues values) :
    ∃ b, JSONMarshaler.Marshal values = (some b, none) := by
  have hkeys : ∀ k ∈ GoMap.keys values, ∃ s, k = GoValue.string s := by
    intro k hk
    simp only [GoMap.keys, List.mem_map] at hk
    obtain ⟨e, he, rfl⟩ := hk
    obtain ⟨⟨s, hs⟩, _⟩ := hnative e he
    exact ⟨.utf8 s, hs⟩
  obtain ⟨compat, hc⟩ := JSONMarshaler.compatLoop_total values [] hkeys
  have hsk : stringKeyed compat = values := by
    have := JSONMarshaler.compatLoop_ok values [] compat hc
      (by simpa [stringKeyed, GoMap.keys] using hvalid.1)
    simpa [stringKeyed] using this
  have hall := JSONMarshaler.native_entries compat (hsk ▸ hvalid) (hsk ▸ hnative)
  obtain ⟨ms, hms, _⟩ := collectMembers_decodeMembers (sortByKey (encodeMembers compat))
    (encoded_members_ok compat hall _
      (fun e he => (List.perm_insertionSort _ _).mem_iff.mp he))
  exact ⟨.json (.object ms), by simp [JSONMarshaler.Marshal, hc, jsonMarshal, hms]⟩

theorem JSONMarshaler.Unmarshal_Marshal_native (values : Values) (b : Bytes)
    (hvalid : validValues values) (hnative : nativeValues values)
    (hm : JSONMarshaler.Marshal values = (some b, none)) :
    (JSONMarshaler.Unmarshal b).2 = none ∧ (JSONMarshaler.Unmarshal b).1.Perm values := by
  obtain ⟨compat, ms, hsk, hms, rfl⟩ := JSONMarshaler.compat_of_Marshal values b hvalid.1 hm
  have hall := JSONMarshaler.native_entries compat (hsk ▸ hvalid) (hsk ▸ hnative)
  have hperm : (sortByKey (encodeMembers compat)).Perm (encodeMembers compat) :=
    List.perm_insertionSort _ _
  obtain ⟨ms2, hms2, hdec⟩ := collectMembers_decodeMembers (sortByKey (encodeMembers compat))
    (encoded_members_ok compat hall _ (fun e he => hperm.mem_iff.mp he))
  rw [hms] at hms2
  simp only [Except.ok.injEq] at hms2
  subst hms2
  have hD : ((sortByKey (encodeMembers compat)).map decodedEntry).Perm compat := by
    have := hperm.map decodedEntry
    rwa [decodedEntry_encoded compat hall] at this
  have hvk : (GoMap.keys (stringKeyed
      ((sortByKey (encodeMembers compat)).map decodedEntry))).Nodup := by
    have h1 := (stringKeyed_perm hD).map Prod.fst
    have h2 : (GoMap.keys (stringKeyed compat)).Nodup := by rw [hsk]; exact hvalid.1
    exact (h1.nodup_iff).mpr h2
  have hk1 := stringKeyed_keys_nodup _ hvk
  have hfold := GoMap.foldl_set_fresh GoValue.string
    ((sortByKey (encodeMembers compat)).map decodedEntry) []
    (by simpa [GoMap.keys, stringKeyed] using hvk)
  simp only [JSONMarshaler.Unmarshal, jsonUnmarshal, hdec, GoMap.ofList_nodup _ hk1]
  rw [hfold]
  refine ⟨trivial, ?_⟩
  have := stringKeyed_perm hD
  rw [hsk] at this
  simpa [stringKeyed] using this

/-- C9 as stated fails at its own witness `{"a": 1}`: `Marshal` accepts it and
returns the bytes `{"a":1}`, `Unmarshal` of these bytes returns no error and
`{"a": float64(1)}`, whose value under `a` is not the `int` that was marshaled.
It fails as well at `{"s": []interface{}(nil), "t": "\xff"}`, a `nil` slice and
a string that is not valid UTF-8: `Marshal` accepts it and writes
`{"s":null,"t":"�"}`, which `Unmarshal` reads as `nil` and as the string
U+FFFD. -/
theorem C9_round_trip_counterexample :
    JSONMarshaler.Marshal valuesA1 = (some bytesA1, none) ∧
    JSONMarshaler.Unmarshal bytesA1 =
      ([(.string (.utf8 "a"), .float64 (.finite false 1 0))], none) ∧
    GoMap.get valuesA1 (.string (.utf8 "a")) = some (.int 1) ∧
    GoMap.get (JSONMarshaler.Unmarshal bytesA1).1 (.string (.utf8 "a")) =
      some (.float64 (.finite false 1 0)) ∧
    ¬ (JSONMarshaler.Unmarshal bytesA1).1.Perm valuesA1 ∧
    validValues valuesNilAndRaw ∧
    JSONMarshaler.Marshal valuesNilAndRaw =
      (some (.json (.object
        [("s", .null), ("t", .string (String.mk [Char.ofNat 0xFFFD]))])), none) ∧
    JSONMarshaler.Unmarshal (.json (.object
        [("s", .null), ("t", .string (String.mk [Char.ofNat 0xFFFD]))])) =
      ([(.string (.utf8 "s"), .nil),
        (.string (.utf8 "t"), .string (.utf8 (String.mk [Char.ofNat 0xFFFD])))], none) := by
  refine ⟨by decide, by decide, by decide, by decide, ?_, ⟨by decide, by decide⟩, by decide,
    by decide⟩
  intro h
  have hmem := h.mem_iff.mp (List.mem_singleton_self _ :
    ((GoValue.string (.utf8 "a"), GoValue.float64 (.finite false 1 0)) :
      GoValue × GoValue) ∈ (JSONMarshaler.Unmarshal bytesA1).1)
  revert hmem
  decide

/-- C9, amended. For every value mapping (a Go map) whose keys are strings of
valid UTF-8 and whose values are of JSON-native form (`nil`, `bool`, finite
`float64`, string of valid UTF-8, non-`nil` `[]interface{}`, non-`nil`
`map[string]interface{}` with keys of valid UTF-8, built from such values),
`JSONMarshaler.Marshal` accepts the mapping, and `Unmarshal` of the bytes it
returns gives no error and a mapping with exactly the entries that were
marshaled. For every other mapping that `Marshal` accepts the entries do not
come back: whatever `Unmarshal` returns has string keys of valid UTF-8 and
values of JSON-native form only. -/
theorem C9_round_trip_json_native (values : Values) (hvalid : validValues values) :
    (nativeValues values → ∃ b, JSONMarshaler.Marshal values = (some b, none)) ∧
    ∀ b, JSONMarshaler.Marshal values = (some b, none) →
      (nativeValues values →
        (JSONMarshaler.Unmarshal b).2 = none ∧ (JSONMarshaler.Unmarshal b).1.Perm values) ∧
      ((JSONMarshaler.Unmarshal b).1.Perm values → nativeValues values) ∧
      nativeValues (JSONMarshaler.Unmarshal b).1 := by
  refine ⟨JSONMarshaler.Marshal_accepts_native values hvalid, fun b hm => ⟨?_, ?_, ?_⟩⟩
  · exact fun hn => JSONMarshaler.Unmarshal_Marshal_native values b hvalid hn hm
  · intro hperm e he
    exact JSONMarshaler.Unmarshal_jsonNative b e (hperm.mem_iff.mpr he)
  · exact JSONMarshaler.Unmarshal_jsonNative b

/-- C9 amended, at `{"b": [true, nil, 1.5], "a": {"y": "x", "z": {}}}`: the
mapping is of JSON-native form, `Marshal` writes
`{"a":{"y":"x","z":{}},"b":[true,null,1.5]}`, and `Unmarshal` of these bytes
returns no error and the entries that were marshaled. -/
theorem C9_round_trip_json_native_witness :
    validValues valuesNative ∧ nativeValues valuesNative ∧
    JSONMarshaler.Marshal valuesNative =
      (some (.json (.object
        [("a", .object [("y", .string "x"), ("z", .object [])]),
          ("b", .array [.bool true, .null, .number (.finite false 3 (-1))])])), none) ∧
    (JSONMarshaler.Unmarshal (.json (.object
        [("a", .object [("y", .string "x"), ("z", .object [])]),
          ("b", .array [.bool true, .null, .number (.finite false 3 (-1))])]))).2 = none ∧
    (JSONMarshaler.Unmarshal (.json (.object
        [("a", .object [("y", .string "x"), ("z", .object [])]),
          ("b", .array [.bool true, .null, .number (.finite false 3 (-1))])]))).1.Perm
      valuesNative :=
  have hvalid : validValues valuesNative := ⟨by decide, by decide⟩
  have hnative : nativeValues valuesNative := by
    intro e he
    simp only [valuesNative, List.mem_cons, List.mem_singleton, List.not_mem_nil,
      or_false] at he
    rcases he with rfl | rfl
    · exact ⟨⟨"b", rfl⟩, by decide⟩
    · exact ⟨⟨"a", rfl⟩, by decide⟩
  have hm : JSONMarshaler.Marshal valuesNative =
      (some (.json (.object
        [("a", .object [("y", .string "x"), ("z", .object [])]),
          ("b", .array [.bool true, .null, .number (.finite false 3 (-1))])])), none) := by
    decide
  have h := ((C9_round_trip_json_native valuesNative hvalid).2 _ hm).1 hnative
  ⟨hvalid, hnative, hm, h.1, h.2⟩

end Gsession
